import Mathlib

/-!
# Phoenix shape generators (`lambda/function/generator/builder.go`)

A shallow embedding of the voxel generators `Circle`, `Sphere`, `Ellipse`, `Torus` and `Line`, of
the argument coercion `getFloat` and of the combinator `Composition`.

* `float64` arithmetic is modelled at two levels. The generators `Circle`, `Sphere`, `Ellipse`,
  `Torus` and `Line` are written over exact arithmetic in a linear ordered field `K` with a floor
  function (`ℚ` for evaluation, `ℝ` for exact real arithmetic); the one infinity that the code can
  produce there from finite input, the step `1 / 0` of `Line`, is written out. The generators
  `Circle64`, `Sphere64` and `Ellipse64` are the same loops with every operation rounded: by
  `round64`, the rounding of IEEE 754 binary64 to nearest, ties to even, and with a bound `fuel`
  on the number of tests of a loop, since a rounded `x += 1` need not advance. On integer
  parameters of magnitude at most `2 ^ 25` the two levels agree (`Circle64_y_intCast`,
  `Sphere64_intCast`).
* `int64` is `Int`, and `float64(n)` is `float64OfInt n`, the `float64` nearest to `n`.
* `math.Sqrt` is a parameter `sqrt : K → K` of the functions that call it.
* A Go run-time panic (index out of range, failed type assertion) is the result `none`.
* A `for` loop that appends to `vec` is the concatenation (`List.flatMap`) of what each iteration
  appends, over the list of values the loop variable takes.
* A function value of the Go type `VMFunc` is named by an index, and what it returns is a
  parameter `call`; a function value of any other Go type is `hostfunc`.
-/

namespace Phoenix

/-! ## Data model -/

/-- Modelled from the spec: `function.Vector` (package `phoenix/lambda/function`), the point type
`Point3`, a triple of coordinates `(a, b, c)`; `[]float64{a, b, c}` is `⟨a, b, c⟩`. -/
structure Vector (K : Type) where
  a : K
  b : K
  c : K
deriving DecidableEq, Repr

/-- Modelled from the spec: the type tags of `ligo.Variable` (package `phoenix/ligo`) that the
generators test or produce. -/
inductive VarType where
  | TypeInt
  | TypeFloat
  | TypeString
  | TypeArray
  | TypeIFunc
  | TypeErr
  | TypeNil
deriving DecidableEq, Repr

/-- Payload of a failure value: the arguments of the message that the code formats. -/
inductive Failure (K : Type) where
  /-- The message `getFloat: expected a Int or float type, got %v at %v`. -/
  | getFloat (got : VarType) (index : Nat)
  /-- The message `circle: `. -/
  | circle
  /-- The message `sphere: Inner radius (%v) is larger than radius (%v)`. -/
  | sphere (ir r : K)
deriving DecidableEq, Repr

/-- Modelled from the spec: `ligo.Variable` (package `phoenix/ligo`), a tagged dynamic value of the
host interpreter. Each constructor is a well-formed pair of `Type` and `Value`: `int` is `TypeInt`
with an `int64`, `float` is `TypeFloat` with a `float64`, `array` is `TypeArray` with a
`[]ligo.Variable`, `vectors` is `TypeArray` with a `[]function.Vector`, `ifunc` is `TypeIFunc` with
a function of the Go type `VMFunc` (named by an index), `hostfunc` is `TypeIFunc` with a function
of any other Go type, such as the plain `func` values that `PluginInit` registers or the
function type of the host itself, `err` is what `vm.Throw` returns. -/
inductive Variable (K : Type) where
  | int (v : Int)
  | float (v : K)
  | string (s : String)
  | array (vs : List (Variable K))
  | vectors (vs : List (Vector K))
  | ifunc (id : Nat)
  | hostfunc (id : Nat)
  | err (e : Failure K)
  | nil

/-- The field `Type` of a `ligo.Variable`. -/
def Variable.Type {K : Type} : Variable K → VarType
  | .int _ => .TypeInt
  | .float _ => .TypeFloat
  | .string _ => .TypeString
  | .array _ => .TypeArray
  | .vectors _ => .TypeArray
  | .ifunc _ => .TypeIFunc
  | .hostfunc _ => .TypeIFunc
  | .err _ => .TypeErr
  | .nil => .TypeNil

/-- Modelled from the spec: `vm.Throw` (package `phoenix/ligo`), which turns a message into the
failure value that the host inspects. -/
def Throw {K : Type} (e : Failure K) : Variable K := .err e

/-! ## Rounding to `float64` -/

/-- Rounding to the nearest integer, ties to the even one. -/
def roundHalfEven (x : ℚ) : ℤ :=
  if x - ⌊x⌋ < 1 / 2 then ⌊x⌋
  else if 1 / 2 < x - ⌊x⌋ then ⌊x⌋ + 1
  else if ⌊x⌋ % 2 = 0 then ⌊x⌋ else ⌊x⌋ + 1

/-- The `float64` nearest to the rational `q`, ties to the even significand: 53 significant bits,
the exponent of the binade at least `-1022` (so the subnormals are multiples of `2 ^ (-1074)`).
The exponent has no upper bound here: where `float64` overflows to an infinity the model keeps a
finite value beyond the largest `float64`. -/
def round64 (q : ℚ) : ℚ :=
  if q = 0 then 0
  else (roundHalfEven (q / 2 ^ (max (Int.log 2 |q|) (-1022) - 52)) : ℚ) *
    2 ^ (max (Int.log 2 |q|) (-1022) - 52)

/-- The conversion `float64(n)` of an `int64`: the `float64` nearest to `n`, which is an integer
(`n` itself up to magnitude `2 ^ 53`). -/
def float64OfInt (n : ℤ) : ℤ := ⌊round64 n⌋

/-- A numeric parameter as the host passes it: an integer or a real. -/
inductive Num (K : Type) where
  | int (n : Int)
  | float (q : K)

section Generators

variable {K : Type} [LinearOrderedField K]

/-- The `ligo.Variable` that carries a numeric parameter. -/
def Num.toVar : Num K → Variable K
  | .int n => .int n
  | .float q => .float q

/-- The `float64` value of a numeric parameter (`float64(v.Value.(int64))` for an integer). -/
def Num.val : Num K → K
  | .int n => (float64OfInt n : K)
  | .float q => q

/-! ## Loop ranges -/

/-- The values of `x` in `for x := lo; x <= hi; x += 1.0`, in order. -/
def sweepLe [FloorRing K] (x hi : K) : List K :=
  if x ≤ hi then x :: sweepLe (x + 1) hi else []
termination_by (⌊hi - x⌋ + 1).toNat
decreasing_by
  have h0 : 0 ≤ ⌊hi - x⌋ := Int.floor_nonneg.2 (sub_nonneg.2 ‹x ≤ hi›)
  have h1 : ⌊hi - (x + 1)⌋ = ⌊hi - x⌋ - 1 := by
    rw [← Int.floor_sub_one]; congr 1; ring
  rw [h1]
  omega

/-- The values of `x` in `for x := lo; x < hi; x++`, in order. -/
def sweepLt [FloorRing K] (x hi : K) : List K :=
  if x < hi then x :: sweepLt (x + 1) hi else []
termination_by ⌈hi - x⌉.toNat
decreasing_by
  have h0 : 0 < ⌈hi - x⌉ := Int.ceil_pos.2 (sub_pos.2 ‹x < hi›)
  have h1 : ⌈hi - (x + 1)⌉ = ⌈hi - x⌉ - 1 := by
    rw [← Int.ceil_sub_one]; congr 1; ring
  rw [h1]
  omega

/-! ## `getFloat` -/

/-- The loop of `getFloat`: `res` is the slice built so far, `k` the index of the next element. -/
def getFloatLoop : List K → Nat → List (Variable K) → Except (Failure K) (List K)
  | res, _, [] => .ok res
  | res, k, v :: vars =>
    match v with
    | .float q => getFloatLoop (res ++ [q]) (k + 1) vars
    | .int n => getFloatLoop (res ++ [(float64OfInt n : K)]) (k + 1) vars
    | _ => .error (.getFloat v.Type k)

/-- The function `getFloat`. -/
def getFloat (vars : List (Variable K)) : Except (Failure K) (List K) :=
  getFloatLoop [] 0 vars

/-! ## `Circle` -/

/-- The function `Circle`, called with the argument list `a`. -/
def Circle [FloorRing K] (a : List (Variable K)) : Option (Variable K) :=
  if a.length < 3 then none else
  match getFloat (a.take 3) with
  | .error e => some (Throw e)
  | .ok [radius, inner, height] =>
    match (a[3]? : Option (Variable K)) with
    | some (Variable.string facing) =>
      if facing = "x" then
        some (.vectors ((sweepLe 0 height).flatMap fun h =>
          (sweepLe (-radius) radius).flatMap fun x =>
            (sweepLt (-radius) radius).flatMap fun y =>
              if radius * radius > x * x + y * y ∧
                  x * x + y * y ≥ (radius - inner) * (radius - inner) then
                [⟨h, x, y⟩]
              else []))
      else if facing = "y" then
        some (.vectors ((sweepLe 0 height).flatMap fun h =>
          (sweepLe (-radius) radius).flatMap fun x =>
            (sweepLe (-radius) radius).flatMap fun y =>
              if radius * radius > x * x + y * y ∧
                  x * x + y * y ≥ (radius - inner) * (radius - inner) then
                [⟨x, h, y⟩]
              else []))
      else if facing = "z" then
        some (.vectors ((sweepLe 0 height).flatMap fun h =>
          (sweepLe (-radius) radius).flatMap fun x =>
            (sweepLe (-radius) radius).flatMap fun y =>
              if radius * radius > x * x + y * y ∧
                  x * x + y * y ≥ (radius - inner) * (radius - inner) then
                [⟨h, x, y⟩]
              else []))
      else some (Throw .circle)
    | _ => none
  | .ok _ => none

/-! ## `Sphere` -/

/-- The function `Sphere`, called with the argument list `a`. -/
def Sphere [FloorRing K] (a : List (Variable K)) : Option (Variable K) :=
  match getFloat a with
  | .error e => some (Throw e)
  | .ok (r :: ir :: _) =>
    if r < ir then some (Throw (.sphere ir r)) else
    some (.vectors ((sweepLt (-r) r).flatMap fun x =>
      (sweepLt (-r) r).flatMap fun y =>
        (sweepLt (-r) r).flatMap fun z =>
          if r * r ≥ x * x + y * y + z * z ∧ x * x + y * y + z * z ≥ ir * ir then
            [⟨x, y, z⟩]
          else []))
  | .ok _ => none

/-! ## `Ellipse` -/

/-- The function `Ellipse`, called with the argument list `a`. A quotient by a zero
`length * length` or `width * width` is an infinity or a NaN in `float64`, and so is the sum that
holds it: the test `< 1` fails, which the conditions `≠ 0` write out. -/
def Ellipse [FloorRing K] (a : List (Variable K)) : Option (Variable K) :=
  if a.length < 3 then none else
  match getFloat (a.take 3) with
  | .error e => some (Throw e)
  | .ok [width, length, height] =>
    match (a[3]? : Option (Variable K)) with
    | some (Variable.string facing) =>
      if facing = "x" then
        some (.vectors ((sweepLe 0 height).flatMap fun h =>
          (sweepLe (-length) length).flatMap fun i =>
            (sweepLe (-width) width).flatMap fun j =>
              if length * length ≠ 0 ∧ width * width ≠ 0 ∧
                  (i * i * 1) / (length * length) + (j * j * 1) / (width * width) < 1 then
                [⟨h, i, j⟩]
              else []))
      else if facing = "y" then
        some (.vectors ((sweepLe 0 height).flatMap fun h =>
          (sweepLe (-length) length).flatMap fun i =>
            (sweepLe (-width) width).flatMap fun j =>
              if length * length ≠ 0 ∧ width * width ≠ 0 ∧
                  (i * i * 1) / (length * length) + (j * j * 1) / (width * width) < 1 then
                [⟨i, j, h⟩]
              else []))
      else if facing = "z" then
        some (.vectors ((sweepLe 0 height).flatMap fun h =>
          (sweepLe (-length) length).flatMap fun i =>
            (sweepLe (-width) width).flatMap fun j =>
              if length * length ≠ 0 ∧ width * width ≠ 0 ∧
                  (i * i * 1) / (length * length) + (j * j * 1) / (width * width) < 1 then
                [⟨i, h, j⟩]
              else []))
      else some (.vectors [])
    | _ => none
  | .ok _ => none

/-! ## `Torus` -/

/-- The function `Torus`, called with the argument list `a`; `sqrt` is `math.Sqrt`. -/
def Torus [FloorRing K] (sqrt : K → K) (a : List (Variable K)) : Option (Variable K) :=
  if a.length < 2 then none else
  match getFloat (a.take 2) with
  | .error e => some (Throw e)
  | .ok [R, r] =>
    match (a[2]? : Option (Variable K)) with
    | some (Variable.string facing) =>
      if facing = "x" then
        some (.vectors ((sweepLt (-R - r) (R + r)).flatMap fun x =>
          (sweepLt (-R - r) (R + r)).flatMap fun y =>
            let xyDist := sqrt (x * x + y * y)
            if xyDist > 0 then
              let ringx := x / xyDist * R
              let ringy := y / xyDist * R
              let ringDist := (x - ringx) * (x - ringx) + (y - ringy) * (y - ringy)
              (sweepLt (-R - r) (R + r)).flatMap fun z =>
                if ringDist + z * z ≤ r * r then [⟨y, x, z⟩] else []
            else []))
      else if facing = "y" then
        some (.vectors ((sweepLt (-R - r) (R + r)).flatMap fun x =>
          (sweepLt (-R - r) (R + r)).flatMap fun y =>
            let xyDist := sqrt (x * x + y * y)
            if xyDist > 0 then
              let ringx := x / xyDist * R
              let ringy := y / xyDist * R
              let ringDist := (x - ringx) * (x - ringx) + (y - ringy) * (y - ringy)
              (sweepLt (-R - r) (R + r)).flatMap fun z =>
                if ringDist + z * z ≤ r * r then [⟨x, y, z⟩] else []
            else []))
      else if facing = "z" then
        some (.vectors ((sweepLt (-R - r) (R + r)).flatMap fun x =>
          (sweepLt (-R - r) (R + r)).flatMap fun y =>
            let xyDist := sqrt (x * x + y * y)
            if xyDist > 0 then
              let ringx := x / xyDist * R
              let ringy := y / xyDist * R
              let ringDist := (x - ringx) * (x - ringx) + (y - ringy) * (y - ringy)
              (sweepLt (-R - r) (R + r)).flatMap fun z =>
                if ringDist + z * z ≤ r * r then [⟨x, z, y⟩] else []
            else []))
      else some (.vectors [])
    | _ => none
  | .ok _ => none

/-! ## The generators in `float64` arithmetic

The same loops with every sum, difference, product and quotient rounded by `rnd`, which is
`round64` for the program; each operation is rounded on its own (no fused multiply-add). The
negation `-radius` and the comparisons are exact. A result `none` is a panic, as before, or a loop
that is still running after `fuel` tests. -/

/-- The values of `x` in `for x := lo; x <= hi; x += 1.0`, the sum rounded by `rnd`; `none` when
the loop is still running after `fuel` tests. -/
def sweepLe64 (rnd : K → K) : Nat → K → K → Option (List K)
  | 0, _, _ => none
  | fuel + 1, x, hi =>
    if x ≤ hi then (sweepLe64 rnd fuel (rnd (x + 1)) hi).map (x :: ·) else some []

/-- The values of `x` in `for x := lo; x < hi; x++`, the sum rounded by `rnd`; `none` when the
loop is still running after `fuel` tests. -/
def sweepLt64 (rnd : K → K) : Nat → K → K → Option (List K)
  | 0, _, _ => none
  | fuel + 1, x, hi =>
    if x < hi then (sweepLt64 rnd fuel (rnd (x + 1)) hi).map (x :: ·) else some []

/-- A loop over the values `l` whose body at `a` appends the points `body a` to `vec`; `none`
when a body does not return. -/
def appendEach {α β : Type} : List α → (α → Option (List β)) → Option (List β)
  | [], _ => some []
  | a :: l, body =>
    match body a, appendEach l body with
    | some b, some bs => some (b ++ bs)
    | _, _ => none

/-- The function `Circle` in `float64` arithmetic. -/
def Circle64 (rnd : K → K) (fuel : Nat) (a : List (Variable K)) : Option (Variable K) :=
  if a.length < 3 then none else
  match getFloat (a.take 3) with
  | .error e => some (Throw e)
  | .ok [radius, inner, height] =>
    match (a[3]? : Option (Variable K)) with
    | some (Variable.string facing) =>
      if facing = "x" then
        (sweepLe64 rnd fuel 0 height).bind fun hs =>
          (appendEach hs fun h =>
            (sweepLe64 rnd fuel (-radius) radius).bind fun xs =>
              appendEach xs fun x =>
                (sweepLt64 rnd fuel (-radius) radius).map fun ys =>
                  ys.flatMap fun y =>
                    if rnd (radius * radius) > rnd (rnd (x * x) + rnd (y * y)) ∧
                        rnd (rnd (x * x) + rnd (y * y)) ≥
                          rnd (rnd (radius - inner) * rnd (radius - inner)) then
                      [⟨h, x, y⟩]
                    else []).map Variable.vectors
      else if facing = "y" then
        (sweepLe64 rnd fuel 0 height).bind fun hs =>
          (appendEach hs fun h =>
            (sweepLe64 rnd fuel (-radius) radius).bind fun xs =>
              appendEach xs fun x =>
                (sweepLe64 rnd fuel (-radius) radius).map fun ys =>
                  ys.flatMap fun y =>
                    if rnd (radius * radius) > rnd (rnd (x * x) + rnd (y * y)) ∧
                        rnd (rnd (x * x) + rnd (y * y)) ≥
                          rnd (rnd (radius - inner) * rnd (radius - inner)) then
                      [⟨x, h, y⟩]
                    else []).map Variable.vectors
      else if facing = "z" then
        (sweepLe64 rnd fuel 0 height).bind fun hs =>
          (appendEach hs fun h =>
            (sweepLe64 rnd fuel (-radius) radius).bind fun xs =>
              appendEach xs fun x =>
                (sweepLe64 rnd fuel (-radius) radius).map fun ys =>
                  ys.flatMap fun y =>
                    if rnd (radius * radius) > rnd (rnd (x * x) + rnd (y * y)) ∧
                        rnd (rnd (x * x) + rnd (y * y)) ≥
                          rnd (rnd (radius - inner) * rnd (radius - inner)) then
                      [⟨h, x, y⟩]
                    else []).map Variable.vectors
      else some (Throw .circle)
    | _ => none
  | .ok _ => none

/-- The function `Sphere` in `float64` arithmetic. -/
def Sphere64 (rnd : K → K) (fuel : Nat) (a : List (Variable K)) : Option (Variable K) :=
  match getFloat a with
  | .error e => some (Throw e)
  | .ok (r :: ir :: _) =>
    if r < ir then some (Throw (.sphere ir r)) else
    (sweepLt64 rnd fuel (-r) r).bind fun xs =>
      (appendEach xs fun x =>
        (sweepLt64 rnd fuel (-r) r).bind fun ys =>
          appendEach ys fun y =>
            (sweepLt64 rnd fuel (-r) r).map fun zs =>
              zs.flatMap fun z =>
                if rnd (r * r) ≥ rnd (rnd (rnd (x * x) + rnd (y * y)) + rnd (z * z)) ∧
                    rnd (rnd (rnd (x * x) + rnd (y * y)) + rnd (z * z)) ≥ rnd (ir * ir) then
                  [⟨x, y, z⟩]
                else []).map Variable.vectors
  | .ok _ => none

/-- The function `Ellipse` in `float64` arithmetic. A quotient by a zero `length * length` or
`width * width` is an infinity or a NaN in `float64`, and so is the sum that holds it: the test
`< 1` fails, which the conditions `≠ 0` write out. -/
def Ellipse64 (rnd : K → K) (fuel : Nat) (a : List (Variable K)) : Option (Variable K) :=
  if a.length < 3 then none else
  match getFloat (a.take 3) with
  | .error e => some (Throw e)
  | .ok [width, length, height] =>
    match (a[3]? : Option (Variable K)) with
    | some (Variable.string facing) =>
      if facing = "x" then
        (sweepLe64 rnd fuel 0 height).bind fun hs =>
          (appendEach hs fun h =>
            (sweepLe64 rnd fuel (-length) length).bind fun is =>
              appendEach is fun i =>
                (sweepLe64 rnd fuel (-width) width).map fun js =>
                  js.flatMap fun j =>
                    if rnd (length * length) ≠ 0 ∧ rnd (width * width) ≠ 0 ∧
                        rnd (rnd (rnd (rnd (i * i) * 1) / rnd (length * length)) +
                          rnd (rnd (rnd (j * j) * 1) / rnd (width * width))) < 1 then
                      [⟨h, i, j⟩]
                    else []).map Variable.vectors
      else if facing = "y" then
        (sweepLe64 rnd fuel 0 height).bind fun hs =>
          (appendEach hs fun h =>
            (sweepLe64 rnd fuel (-length) length).bind fun is =>
              appendEach is fun i =>
                (sweepLe64 rnd fuel (-width) width).map fun js =>
                  js.flatMap fun j =>
                    if rnd (length * length) ≠ 0 ∧ rnd (width * width) ≠ 0 ∧
                        rnd (rnd (rnd (rnd (i * i) * 1) / rnd (length * length)) +
                          rnd (rnd (rnd (j * j) * 1) / rnd (width * width))) < 1 then
                      [⟨i, j, h⟩]
                    else []).map Variable.vectors
      else if facing = "z" then
        (sweepLe64 rnd fuel 0 height).bind fun hs =>
          (appendEach hs fun h =>
            (sweepLe64 rnd fuel (-length) length).bind fun is =>
              appendEach is fun i =>
                (sweepLe64 rnd fuel (-width) width).map fun js =>
                  js.flatMap fun j =>
                    if rnd (length * length) ≠ 0 ∧ rnd (width * width) ≠ 0 ∧
                        rnd (rnd (rnd (rnd (i * i) * 1) / rnd (length * length)) +
                          rnd (rnd (rnd (j * j) * 1) / rnd (width * width))) < 1 then
                      [⟨i, h, j⟩]
                    else []).map Variable.vectors
      else some (.vectors [])
    | _ => none
  | .ok _ => none

/-! ## `Line` -/

/-- The loop `for t >= 0 && t <= 1` of `Line` with step `s`, started at `t` with the points
`BlockSet` emitted so far; `none` when the loop is still running after `fuel` iterations. -/
def LineLoop (sx sy sz ex ey ez s : K) : Nat → K → List (Vector K) → Option (List (Vector K))
  | 0, _, _ => none
  | fuel + 1, t, BlockSet =>
    if t ≥ 0 ∧ t ≤ 1 then
      LineLoop sx sy sz ex ey ez s fuel (t + s)
        (BlockSet ++ [⟨t * (ex - sx) + sx, t * (ey - sy) + sy, t * (ez - sz) + sz⟩])
    else some BlockSet

/-- The function `Line`; `sqrt` is `math.Sqrt`, and `fuel` bounds the number of loop tests.
When the length is `0` the step `1 / 0` is `+Inf` in `float64`: the first iteration emits the point
at `t = 0` and `t += s` ends the loop; that case is written out, every other step is the
quotient in `K`. -/
def Line (sqrt : K → K) (fuel : Nat) (begin_ end_ : Vector K) : Option (List (Vector K)) :=
  let sx := begin_.a
  let sy := begin_.b
  let sz := begin_.c
  let ex := end_.a
  let ey := end_.b
  let ez := end_.c
  let len := sqrt ((ex - sx) ^ 2 + (ey - sy) ^ 2 + (ez - sz) ^ 2)
  if len = 0 then
    match fuel with
    | 0 | 1 => none
    | _ + 2 => some [⟨0 * (ex - sx) + sx, 0 * (ey - sy) + sy, 0 * (ez - sz) + sz⟩]
  else LineLoop sx sy sz ex ey ez (1 / len) fuel 0 []

/-! ## `Composition` -/

/-- The function `Composition`, called with the argument list `a`; `call id v` is the value
`fn(vm, v)` returned by the function value named `id`. The test `a[0].Type == ligo.TypeIFunc`
comes first and `&&` skips `a[1]` when it fails; the type assertions `a[0].Value.(VMFunc)` and
`a[1].Value.([]ligo.Variable)` panic on a value of another dynamic type, such as the
`[]function.Vector` that the generators return. -/
def Composition (call : Nat → Variable K → Variable K) (a : List (Variable K)) :
    Option (Variable K) :=
  match a with
  | [] => none
  | a0 :: rest =>
    if a0.Type = .TypeIFunc then
      match rest with
      | [] => none
      | a1 :: _ =>
        if a1.Type = .TypeArray then
          match a0, a1 with
          | .ifunc fn, .array vs =>
            some (.array (vs.foldl (fun res v => res ++ [call fn v]) []))
          | _, _ => none
        else some (.array [])
    else some (.array [])

/-- A sample square root for evaluation: the integer square root of the integer part, exact on
perfect squares. -/
def isqrt (q : ℚ) : ℚ := (Nat.sqrt ⌊q⌋.toNat : ℚ)

/-! ## Reference definitions of the specification -/

/-- The `float64` value of a tagged value of integer or float type, `none` for every other
type. -/
def Variable.real? : Variable K → Option K
  | .int n => some (float64OfInt n : K)
  | .float q => some q
  | _ => none

/-- The strict lexicographic order on points, first coordinate most significant. -/
def Vector.lexLt (p q : Vector K) : Prop :=
  p.a < q.a ∨ (p.a = q.a ∧ (p.b < q.b ∨ (p.b = q.b ∧ p.c < q.c)))

/-- The values of one axis of the full grid `[-R, R]`: unit steps from `-R`, not beyond `R`. -/
def gridAxis [FloorRing K] (R : K) : List K :=
  (List.range (⌊R + R⌋.toNat + 1)).map fun (k : ℕ) => -R + (k : K)

/-- The brute-force disk of the specification: the full grid `[-R, R] × [-R, R]` filtered by
`x * x + y * y < R * R`, each grid point `(x, y)` placed at height `0` as `(x, 0, y)`. -/
def bruteDisk [FloorRing K] (R : K) : List (Vector K) :=
  ((gridAxis R ×ˢ gridAxis R).filter fun p => decide (p.1 * p.1 + p.2 * p.2 < R * R)).map
    fun p => ⟨p.1, 0, p.2⟩

end Generators

/-! ## Rounding: lemmas -/

section RoundingLemmas

theorem roundHalfEven_intCast (z : ℤ) : roundHalfEven z = z := by
  simp [roundHalfEven]

theorem abs_roundHalfEven_sub_le (x : ℚ) : |(roundHalfEven x : ℚ) - x| ≤ 1 / 2 := by
  have h1 := Int.floor_le x
  have h2 := Int.lt_floor_add_one x
  unfold roundHalfEven
  split_ifs with a b c
  · rw [abs_le]; constructor <;> linarith
  · push_cast; rw [abs_le]; constructor <;> linarith
  · rw [abs_le]; constructor <;> linarith
  · push_cast; rw [abs_le]; constructor <;> linarith

theorem roundHalfEven_eq_of_abs_lt {x : ℚ} {z : ℤ} (h : |x - z| < 1 / 2) :
    roundHalfEven x = z := by
  have h' := abs_lt.1 h
  have hle := abs_le.1 (abs_roundHalfEven_sub_le x)
  have : |((roundHalfEven x - z : ℤ) : ℚ)| < 1 := by
    push_cast
    rw [abs_lt]; constructor <;> linarith [h'.1, h'.2, hle.1, hle.2]
  have h3 : |roundHalfEven x - z| < 1 := by exact_mod_cast this
  have := Int.abs_lt_one_iff.1 h3
  omega

theorem roundHalfEven_tie_down {x : ℚ} {z : ℤ} (hz : z % 2 = 0) (h : x = z + 1 / 2) :
    roundHalfEven x = z := by
  have hf : ⌊x⌋ = z := by
    rw [Int.floor_eq_iff]; constructor <;> rw [h] <;> linarith
  unfold roundHalfEven
  rw [hf, h]
  norm_num [hz]

theorem roundHalfEven_tie_up {x : ℚ} {z : ℤ} (hz : z % 2 = 0) (h : x = z - 1 / 2) :
    roundHalfEven x = z := by
  have hf : ⌊x⌋ = z - 1 := by
    rw [Int.floor_eq_iff]; constructor <;> rw [h] <;> push_cast <;> linarith
  unfold roundHalfEven
  rw [hf, h]
  have : (z - 1) % 2 ≠ 0 := by omega
  push_cast
  norm_num [this]

/-- The exponent of the binade of `q`. -/
theorem log_eq_of_mem_binade {q : ℚ} {e : ℤ} (h1 : (2 : ℚ) ^ e ≤ |q|) (h2 : |q| < 2 ^ (e + 1)) :
    Int.log 2 |q| = e := by
  have hpos : 0 < |q| := lt_of_lt_of_le (by positivity) h1
  have ha : e ≤ Int.log 2 |q| := (Int.zpow_le_iff_le_log (by norm_num) hpos).1 (by exact_mod_cast h1)
  have hb : Int.log 2 |q| < e + 1 := (Int.lt_zpow_iff_log_lt (by norm_num) hpos).1 (by exact_mod_cast h2)
  omega

theorem round64_eq {q : ℚ} {e : ℤ} (h1 : (2 : ℚ) ^ e ≤ |q|) (h2 : |q| < 2 ^ (e + 1))
    (he : -1022 ≤ e) :
    round64 q = (roundHalfEven (q / 2 ^ (e - 52)) : ℚ) * 2 ^ (e - 52) := by
  have hq : q ≠ 0 := by
    intro h; rw [h, abs_zero] at h1
    exact absurd h1 (not_le.2 (by positivity))
  rw [round64, if_neg hq, log_eq_of_mem_binade h1 h2, max_eq_left he]

/-- A rational with at most 53 significant bits above `2 ^ (-1074)` is a float64. -/
theorem round64_eq_self (m k : ℤ) (hm : |m| < 2 ^ 53) (hk : -1074 ≤ k) :
    round64 (m * 2 ^ k) = m * 2 ^ k := by
  by_cases hq : (m : ℚ) * 2 ^ k = 0
  · rw [round64, if_pos hq, hq]
  rw [round64, if_neg hq]
  have hpos : 0 < |(m : ℚ) * 2 ^ k| := abs_pos.2 hq
  have hlt : |(m : ℚ) * 2 ^ k| < 2 ^ (53 + k) := by
    rw [abs_mul, abs_of_pos (show (0 : ℚ) < 2 ^ k by positivity), zpow_add₀ (by norm_num)]
    have : (|m| : ℚ) < 2 ^ (53 : ℤ) := by
      have : ((|m| : ℤ) : ℚ) < ((2 ^ 53 : ℤ) : ℚ) := by exact_mod_cast hm
      rw [Int.cast_abs] at this
      norm_num at this ⊢
      exact this
    exact mul_lt_mul_of_pos_right this (by positivity)
  have hL : Int.log 2 |(m : ℚ) * 2 ^ k| < 53 + k :=
    (Int.lt_zpow_iff_log_lt (by norm_num) hpos).1 (by exact_mod_cast hlt)
  obtain ⟨d, hd⟩ : ∃ d : ℕ, (d : ℤ) = k - (max (Int.log 2 |(m : ℚ) * 2 ^ k|) (-1022) - 52) :=
    ⟨(k - (max (Int.log 2 |(m : ℚ) * 2 ^ k|) (-1022) - 52)).toNat, by
      rw [Int.toNat_of_nonneg]
      have := max_le (show Int.log 2 |(m : ℚ) * 2 ^ k| ≤ 52 + k by omega)
        (show (-1022 : ℤ) ≤ 52 + k by omega)
      omega⟩
  generalize max (Int.log 2 |(m : ℚ) * 2 ^ k|) (-1022) - 52 = u at hd
  have hk' : k = d + u := by omega
  have hdiv : (m : ℚ) * 2 ^ k / 2 ^ u = ((m * 2 ^ d : ℤ) : ℚ) := by
    rw [hk', zpow_add₀ (by norm_num), ← mul_assoc, mul_div_assoc,
      div_self (zpow_ne_zero _ (by norm_num)), mul_one]
    push_cast
    rw [zpow_natCast]
  rw [hdiv, roundHalfEven_intCast, hk', zpow_add₀ (by norm_num)]
  push_cast
  rw [zpow_natCast]
  ring

/-- Integers up to `2 ^ 53` in magnitude are float64 values. -/
theorem round64_intCast (n : ℤ) (hn : |n| ≤ 2 ^ 53) : round64 n = n := by
  rcases hn.lt_or_eq with h | h
  · simpa using round64_eq_self n 0 h (by norm_num)
  · rcases abs_eq (by norm_num : (0 : ℤ) ≤ 2 ^ 53) |>.1 h with h | h
    · have := round64_eq_self 1 53 (by norm_num) (by norm_num)
      rw [h]
      norm_num at this ⊢
      exact this
    · have := round64_eq_self (-1) 53 (by norm_num) (by norm_num)
      rw [h]
      norm_num at this ⊢
      exact this

/-- Below `2 ^ 53` the rounding error is at most one half. -/
theorem abs_round64_sub_le {q : ℚ} (hq : |q| < 2 ^ 53) : |round64 q - q| ≤ 1 / 2 := by
  by_cases h0 : q = 0
  · rw [round64, if_pos h0, h0]; norm_num
  rw [round64, if_neg h0]
  have hpos : 0 < |q| := abs_pos.2 h0
  have hL : Int.log 2 |q| < 53 :=
    (Int.lt_zpow_iff_log_lt (by norm_num) hpos).1 (by exact_mod_cast hq)
  have hu : max (Int.log 2 |q|) (-1022) - 52 ≤ 0 := by
    have := max_le (show Int.log 2 |q| ≤ 52 by omega) (show (-1022 : ℤ) ≤ 52 by norm_num)
    omega
  generalize max (Int.log 2 |q|) (-1022) - 52 = u at hu
  have hu0 : (0 : ℚ) < 2 ^ u := by positivity
  have hu1 : (2 : ℚ) ^ u ≤ 1 := zpow_le_one_of_nonpos₀ (by norm_num) hu
  have h := abs_roundHalfEven_sub_le (q / 2 ^ u)
  have : (roundHalfEven (q / 2 ^ u) : ℚ) * 2 ^ u - q =
      ((roundHalfEven (q / 2 ^ u) : ℚ) - q / 2 ^ u) * 2 ^ u := by
    field_simp
  rw [this, abs_mul, abs_of_pos hu0]
  calc |(roundHalfEven (q / 2 ^ u) : ℚ) - q / 2 ^ u| * 2 ^ u ≤ 1 / 2 * 1 :=
        mul_le_mul h hu1 hu0.le (by norm_num)
    _ = 1 / 2 := by norm_num

/-- The conversion `float64(n)` is exact up to magnitude `2 ^ 53`. -/
theorem float64OfInt_eq_self (n : ℤ) (hn : |n| ≤ 2 ^ 53) : float64OfInt n = n := by
  rw [float64OfInt, round64_intCast n hn, Int.floor_intCast]

/-- The `float64` nearest to an integer is an integer: the floor in `float64OfInt` changes
nothing. -/
theorem float64OfInt_cast (n : ℤ) : ((float64OfInt n : ℤ) : ℚ) = round64 n := by
  rcases le_or_lt |n| (2 ^ 53) with h | h
  · rw [float64OfInt_eq_self n h, round64_intCast n h]
  have hq : (2 : ℚ) ^ (53 : ℤ) ≤ |(n : ℚ)| := by
    have : ((2 ^ 53 : ℤ) : ℚ) ≤ ((|n| : ℤ) : ℚ) := by exact_mod_cast h.le
    rw [Int.cast_abs] at this
    norm_num at this ⊢
    exact this
  have hpos : 0 < |(n : ℚ)| := lt_of_lt_of_le (by positivity) hq
  have hL : 53 ≤ Int.log 2 |(n : ℚ)| :=
    (Int.zpow_le_iff_le_log (by norm_num) hpos).1 (by exact_mod_cast hq)
  have hn0 : (n : ℚ) ≠ 0 := fun h0 => by rw [h0, abs_zero] at hpos; exact lt_irrefl _ hpos
  obtain ⟨d, hd⟩ : ∃ d : ℕ, (d : ℤ) = max (Int.log 2 |(n : ℚ)|) (-1022) - 52 :=
    ⟨(max (Int.log 2 |(n : ℚ)|) (-1022) - 52).toNat, by
      rw [Int.toNat_of_nonneg]
      have := le_max_left (Int.log 2 |(n : ℚ)|) (-1022)
      omega⟩
  have key : round64 n = ((roundHalfEven ((n : ℚ) / 2 ^ (d : ℤ)) * 2 ^ d : ℤ) : ℚ) := by
    rw [round64, if_neg hn0, ← hd]
    push_cast
    rw [zpow_natCast]
  rw [float64OfInt, key, Int.floor_intCast]

@[simp]
theorem float64OfInt_zero : float64OfInt 0 = 0 := float64OfInt_eq_self 0 (by norm_num)

@[simp]
theorem float64OfInt_one : float64OfInt 1 = 1 := float64OfInt_eq_self 1 (by norm_num)

@[simp]
theorem float64OfInt_two : float64OfInt 2 = 2 := float64OfInt_eq_self 2 (by norm_num)

@[simp]
theorem float64OfInt_three : float64OfInt 3 = 3 := float64OfInt_eq_self 3 (by norm_num)

@[simp]
theorem float64OfInt_natCast (n : ℕ) (hn : n ≤ 2 ^ 53) : float64OfInt (n : ℤ) = n :=
  float64OfInt_eq_self n (by rw [abs_of_nonneg (Int.natCast_nonneg n)]; exact_mod_cast hn)

theorem roundHalfEven_nonneg {x : ℚ} (h : 0 ≤ x) : 0 ≤ roundHalfEven x := by
  have hf : 0 ≤ ⌊x⌋ := Int.floor_nonneg.2 h
  unfold roundHalfEven
  split_ifs <;> omega

theorem round64_nonneg {q : ℚ} (h : 0 ≤ q) : 0 ≤ round64 q := by
  unfold round64
  split_ifs
  · exact le_rfl
  · have hz : (0 : ℚ) ≤ roundHalfEven (q / 2 ^ (max (Int.log 2 |q|) (-1022) - 52)) := by
      exact_mod_cast roundHalfEven_nonneg (div_nonneg h (by positivity))
    exact mul_nonneg hz (by positivity)

/-- The rounding error of `round64`: at most `2 ^ (-53)` relative to the operand, or half the
spacing `2 ^ (-1074)` of the subnormals. -/
theorem abs_round64_sub_le_rel (q : ℚ) : |round64 q - q| ≤ |q| / 2 ^ 53 + 1 / 2 ^ 1075 := by
  by_cases h0 : q = 0
  · rw [round64, if_pos h0, h0]; norm_num
  rw [round64, if_neg h0]
  have hpos : 0 < |q| := abs_pos.2 h0
  have hlog : (2 : ℚ) ^ Int.log 2 |q| ≤ |q| := by
    have := Int.zpow_log_le_self (b := 2) (r := |q|) (by norm_num) hpos
    exact_mod_cast this
  have hu : (2 : ℚ) ^ (max (Int.log 2 |q|) (-1022) - 52) / 2 ≤ |q| / 2 ^ 53 + 1 / 2 ^ 1075 := by
    rcases le_total (Int.log 2 |q|) (-1022) with h | h
    · rw [max_eq_right h]
      have : (2 : ℚ) ^ ((-1022 : ℤ) - 52) / 2 = 1 / 2 ^ 1075 := by
        rw [show ((-1022 : ℤ) - 52) = -(1074 : ℤ) by norm_num, zpow_neg]
        norm_num
      rw [this]
      have : 0 ≤ |q| / 2 ^ 53 := by positivity
      linarith
    · rw [max_eq_left h, zpow_sub₀ (by norm_num)]
      have : (2 : ℚ) ^ Int.log 2 |q| / 2 ^ (52 : ℤ) / 2 = 2 ^ Int.log 2 |q| / 2 ^ 53 := by
        rw [div_div]; norm_num
      rw [this]
      have h1 : (2 : ℚ) ^ Int.log 2 |q| / 2 ^ 53 ≤ |q| / 2 ^ 53 :=
        div_le_div_of_nonneg_right hlog (by positivity)
      have : (0 : ℚ) ≤ 1 / 2 ^ 1075 := by positivity
      linarith
  generalize max (Int.log 2 |q|) (-1022) - 52 = u at hu
  have hu0 : (0 : ℚ) < 2 ^ u := by positivity
  have h := abs_roundHalfEven_sub_le (q / 2 ^ u)
  have : (roundHalfEven (q / 2 ^ u) : ℚ) * 2 ^ u - q =
      ((roundHalfEven (q / 2 ^ u) : ℚ) - q / 2 ^ u) * 2 ^ u := by
    field_simp
  rw [this, abs_mul, abs_of_pos hu0]
  calc |(roundHalfEven (q / 2 ^ u) : ℚ) - q / 2 ^ u| * 2 ^ u ≤ 1 / 2 * 2 ^ u :=
        mul_le_mul_of_nonneg_right h hu0.le
    _ = 2 ^ u / 2 := by ring
    _ ≤ _ := hu

/-- For a nonnegative operand: the rounded value is nonnegative, and at least the operand less
the relative error `2 ^ (-53)` and `2 ^ (-100)`. -/
theorem round64_lower {q : ℚ} (h : 0 ≤ q) :
    0 ≤ round64 q ∧ q * (1 - 1 / 2 ^ 53) - 1 / 2 ^ 100 ≤ round64 q := by
  refine ⟨round64_nonneg h, ?_⟩
  have h1 := abs_le.1 (abs_round64_sub_le_rel q)
  rw [abs_of_nonneg h] at h1
  have : (1 : ℚ) / 2 ^ 1075 ≤ 1 / 2 ^ 100 := by norm_num
  linarith [h1.1]

theorem round64_upper {q : ℚ} (h : 0 ≤ q) :
    round64 q ≤ q * (1 + 1 / 2 ^ 53) + 1 / 2 ^ 100 := by
  have h1 := abs_le.1 (abs_round64_sub_le_rel q)
  rw [abs_of_nonneg h] at h1
  have : (1 : ℚ) / 2 ^ 1075 ≤ 1 / 2 ^ 100 := by norm_num
  linarith [h1.2]

end RoundingLemmas

/-! ## Loop ranges: lemmas -/

section SweepLemmas

variable {K : Type} [LinearOrderedField K] [FloorRing K]

theorem sweepLe_cons {x hi : K} (h : x ≤ hi) : sweepLe x hi = x :: sweepLe (x + 1) hi := by
  rw [sweepLe, if_pos h]

theorem sweepLe_nil {x hi : K} (h : hi < x) : sweepLe x hi = [] := by
  rw [sweepLe, if_neg (not_le.2 h)]

theorem sweepLt_cons {x hi : K} (h : x < hi) : sweepLt x hi = x :: sweepLt (x + 1) hi := by
  rw [sweepLt, if_pos h]

theorem sweepLt_nil {x hi : K} (h : hi ≤ x) : sweepLt x hi = [] := by
  rw [sweepLt, if_neg (not_lt.2 h)]

/-- The closed sweep takes the `⌊hi - x⌋ + 1` values `x, x + 1, ...`. -/
theorem sweepLe_eq_map (x hi : K) :
    sweepLe x hi = (List.range (⌊hi - x⌋ + 1).toNat).map fun (k : ℕ) => x + (k : K) := by
  generalize hn : (⌊hi - x⌋ + 1).toNat = n
  induction n generalizing x with
  | zero =>
    have h : ⌊hi - x⌋ < 0 := by omega
    rw [sweepLe_nil (sub_neg.1 (Int.floor_lt.1 h |>.trans_eq (by simp)))]
    simp
  | succ n ih =>
    have h : 0 ≤ ⌊hi - x⌋ := by omega
    have hx : x ≤ hi := sub_nonneg.1 (Int.floor_nonneg.1 h)
    have h1 : ⌊hi - (x + 1)⌋ = ⌊hi - x⌋ - 1 := by
      rw [← Int.floor_sub_one]; congr 1; ring
    rw [sweepLe_cons hx, ih (x + 1) (by rw [h1]; omega), List.range_succ_eq_map]
    simp [Function.comp_def, add_assoc, add_comm (1 : K)]

/-- The half-open sweep takes the `⌈hi - x⌉` values `x, x + 1, ...`. -/
theorem sweepLt_eq_map (x hi : K) :
    sweepLt x hi = (List.range ⌈hi - x⌉.toNat).map fun (k : ℕ) => x + (k : K) := by
  generalize hn : ⌈hi - x⌉.toNat = n
  induction n generalizing x with
  | zero =>
    have h : ⌈hi - x⌉ ≤ 0 := by omega
    rw [sweepLt_nil (sub_nonpos.1 (Int.ceil_le.1 h |>.trans_eq (by simp)))]
    simp
  | succ n ih =>
    have h : 0 < ⌈hi - x⌉ := by omega
    have hx : x < hi := sub_pos.1 (Int.ceil_pos.1 h)
    have h1 : ⌈hi - (x + 1)⌉ = ⌈hi - x⌉ - 1 := by
      rw [← Int.ceil_sub_one]; congr 1; ring
    rw [sweepLt_cons hx, ih (x + 1) (by rw [h1]; omega), List.range_succ_eq_map]
    simp [Function.comp_def, add_assoc, add_comm (1 : K)]

theorem mem_sweepLe {x hi y : K} :
    y ∈ sweepLe x hi ↔ ∃ k : ℕ, y = x + k ∧ y ≤ hi := by
  rw [sweepLe_eq_map]
  simp only [List.mem_map, List.mem_range]
  constructor
  · rintro ⟨k, hk, rfl⟩
    refine ⟨k, rfl, ?_⟩
    have h1 : (k : ℤ) ≤ ⌊hi - x⌋ := by omega
    have h2 : ((k : ℤ) : K) ≤ hi - x := Int.le_floor.1 h1
    have h3 : ((k : ℤ) : K) = (k : K) := by simp
    linarith
  · rintro ⟨k, rfl, hk⟩
    refine ⟨k, ?_, rfl⟩
    have h2 : ((k : ℤ) : K) ≤ hi - x := by
      have h3 : ((k : ℤ) : K) = (k : K) := by simp
      linarith
    have h1 : (k : ℤ) ≤ ⌊hi - x⌋ := Int.le_floor.2 h2
    omega

theorem mem_sweepLt {x hi y : K} :
    y ∈ sweepLt x hi ↔ ∃ k : ℕ, y = x + k ∧ y < hi := by
  rw [sweepLt_eq_map]
  simp only [List.mem_map, List.mem_range]
  constructor
  · rintro ⟨k, hk, rfl⟩
    refine ⟨k, rfl, ?_⟩
    have h1 : (k : ℤ) < ⌈hi - x⌉ := by omega
    have h2 : ((k : ℤ) : K) < hi - x := Int.lt_ceil.1 h1
    have h3 : ((k : ℤ) : K) = (k : K) := by simp
    linarith
  · rintro ⟨k, rfl, hk⟩
    refine ⟨k, ?_, rfl⟩
    have h2 : ((k : ℤ) : K) < hi - x := by
      have h3 : ((k : ℤ) : K) = (k : K) := by simp
      linarith
    have h1 : (k : ℤ) < ⌈hi - x⌉ := Int.lt_ceil.2 h2
    omega

/-- A loop body that appends nothing at `hi` cannot tell the closed sweep from the half-open. -/
theorem flatMap_sweepLe_eq_sweepLt {β : Type} (f : K → List β) (lo hi : K) (hf : f hi = []) :
    (sweepLe lo hi).flatMap f = (sweepLt lo hi).flatMap f := by
  generalize hn : (⌊hi - lo⌋ + 1).toNat = n
  induction n generalizing lo with
  | zero =>
    have h : ⌊hi - lo⌋ < 0 := by omega
    have hlt : hi < lo := sub_neg.1 (Int.floor_lt.1 h |>.trans_eq (by simp))
    rw [sweepLe_nil hlt, sweepLt_nil hlt.le]
  | succ n ih =>
    have h : 0 ≤ ⌊hi - lo⌋ := by omega
    have hx : lo ≤ hi := sub_nonneg.1 (Int.floor_nonneg.1 h)
    have h1 : ⌊hi - (lo + 1)⌋ = ⌊hi - lo⌋ - 1 := by
      rw [← Int.floor_sub_one]; congr 1; ring
    rcases hx.lt_or_eq with hlt | heq
    · rw [sweepLe_cons hx, sweepLt_cons hlt, List.flatMap_cons, List.flatMap_cons,
        ih (lo + 1) (by rw [h1]; omega)]
    · subst heq
      rw [sweepLe_cons le_rfl, sweepLe_nil (lt_add_one lo), sweepLt_nil le_rfl]
      simp [hf]

theorem gridAxis_eq_sweepLe {R : K} (hR : 0 < R) : gridAxis R = sweepLe (-R) R := by
  have h : 0 ≤ ⌊R + R⌋ := Int.floor_nonneg.2 (by linarith)
  rw [sweepLe_eq_map, gridAxis, sub_neg_eq_add]
  congr 2
  omega

theorem sweepLe_zero_zero : sweepLe (0 : K) 0 = [0] := by
  rw [sweepLe_cons le_rfl, sweepLe_nil (by norm_num)]

end SweepLemmas

/-! ## Argument coercion and loop nests: lemmas -/

section NestLemmas

variable {K : Type} [LinearOrderedField K]

theorem getFloat_three (p q r : Num K) :
    getFloat [p.toVar, q.toVar, r.toVar] = .ok [p.val, q.val, r.val] := by
  cases p <;> cases q <;> cases r <;> rfl

theorem getFloat_two (p q : Num K) :
    getFloat [p.toVar, q.toVar] = .ok [p.val, q.val] := by
  cases p <;> cases q <;> rfl

/-- A nest of two loops that appends `g x y` when `P x y` holds is the filtered product. -/
theorem flatMap_flatMap_ite {α β γ : Type} (l₁ : List α) (l₂ : List β) (P : α → β → Prop)
    [∀ x y, Decidable (P x y)] (g : α → β → γ) :
    (l₁.flatMap fun x => l₂.flatMap fun y => if P x y then [g x y] else []) =
      ((l₁ ×ˢ l₂).filter fun p => decide (P p.1 p.2)).map fun p => g p.1 p.2 := by
  have inner : ∀ x : α, (l₂.flatMap fun y => if P x y then [g x y] else []) =
      ((l₂.map (Prod.mk x)).filter fun p => decide (P p.1 p.2)).map fun p => g p.1 p.2 := by
    intro x
    induction l₂ with
    | nil => rfl
    | cons y l ih =>
      rw [List.flatMap_cons, ih]
      by_cases h : P x y <;> simp [h]
  induction l₁ with
  | nil => rfl
  | cons x l ih =>
    rw [List.flatMap_cons, ih, inner]
    simp [List.product_cons]

variable [FloorRing K]

theorem Circle_x_eq (radius inner height : Num K) :
    Circle [radius.toVar, inner.toVar, height.toVar, .string "x"] =
      some (.vectors ((sweepLe 0 height.val).flatMap fun h =>
          (sweepLe (-radius.val) radius.val).flatMap fun x =>
            (sweepLt (-radius.val) radius.val).flatMap fun y =>
              if radius.val * radius.val > x * x + y * y ∧
                  x * x + y * y ≥ (radius.val - inner.val) * (radius.val - inner.val) then
                [⟨h, x, y⟩]
              else [])) := by
  simp [Circle, getFloat_three]

theorem Circle_y_eq (radius inner height : Num K) :
    Circle [radius.toVar, inner.toVar, height.toVar, .string "y"] =
      some (.vectors ((sweepLe 0 height.val).flatMap fun h =>
          (sweepLe (-radius.val) radius.val).flatMap fun x =>
            (sweepLe (-radius.val) radius.val).flatMap fun y =>
              if radius.val * radius.val > x * x + y * y ∧
                  x * x + y * y ≥ (radius.val - inner.val) * (radius.val - inner.val) then
                [⟨x, h, y⟩]
              else [])) := by
  simp [Circle, getFloat_three]

theorem Circle_z_eq (radius inner height : Num K) :
    Circle [radius.toVar, inner.toVar, height.toVar, .string "z"] =
      some (.vectors ((sweepLe 0 height.val).flatMap fun h =>
          (sweepLe (-radius.val) radius.val).flatMap fun x =>
            (sweepLe (-radius.val) radius.val).flatMap fun y =>
              if radius.val * radius.val > x * x + y * y ∧
                  x * x + y * y ≥ (radius.val - inner.val) * (radius.val - inner.val) then
                [⟨h, x, y⟩]
              else [])) := by
  simp [Circle, getFloat_three]

/-- With inner radius `0` the two bounds of `Circle` exclude each other: nothing is appended. -/
theorem Circle_y_inner_zero (R zero height : Num K) (hz : zero.val = 0) :
    Circle [R.toVar, zero.toVar, height.toVar, .string "y"] = some (.vectors []) := by
  rw [Circle_y_eq, hz, sub_zero]
  congr 2
  apply List.flatMap_eq_nil_iff.2
  intro h _
  apply List.flatMap_eq_nil_iff.2
  intro x _
  apply List.flatMap_eq_nil_iff.2
  intro y _
  rw [if_neg]
  rintro ⟨h1, h2⟩
  exact absurd h1 (not_lt.2 h2)

theorem Sphere_eq (r ir : Num K) :
    Sphere [r.toVar, ir.toVar] =
      if r.val < ir.val then some (Throw (.sphere ir.val r.val)) else
      some (.vectors ((sweepLt (-r.val) r.val).flatMap fun x =>
        (sweepLt (-r.val) r.val).flatMap fun y =>
          (sweepLt (-r.val) r.val).flatMap fun z =>
            if r.val * r.val ≥ x * x + y * y + z * z ∧ x * x + y * y + z * z ≥ ir.val * ir.val then
              [⟨x, y, z⟩]
            else [])) := by
  simp [Sphere, getFloat_two]

/-- The output of `Sphere(1, 0)`. -/
theorem Sphere_one_zero :
    Sphere (K := ℚ) [.int 1, .int 0] =
      some (.vectors [⟨-1, 0, 0⟩, ⟨0, -1, 0⟩, ⟨0, 0, -1⟩, ⟨0, 0, 0⟩]) := by
  have h := Sphere_eq (K := ℚ) (.int 1) (.int 0)
  rw [if_neg (by norm_num [Num.val])] at h
  simp only [Num.toVar, Num.val] at h
  rw [h]
  norm_num [sweepLt_cons, sweepLt_nil]

end NestLemmas

/-! ## The generators in `float64` arithmetic: lemmas -/

section Float64Lemmas

theorem appendEach_eq_some {α β : Type} (l : List α) (body : α → Option (List β))
    (g : α → List β) (h : ∀ a ∈ l, body a = some (g a)) :
    appendEach l body = some (l.flatMap g) := by
  induction l with
  | nil => rfl
  | cons a l ih =>
    rw [appendEach, h a (List.mem_cons_self _ _),
      ih (fun b hb => h b (List.mem_cons_of_mem _ hb))]
    rfl

theorem flatMap_congr_mem {α β : Type} (l : List α) (f g : α → List β)
    (h : ∀ a ∈ l, f a = g a) : l.flatMap f = l.flatMap g := by
  induction l with
  | nil => rfl
  | cons a l ih =>
    rw [List.flatMap_cons, List.flatMap_cons, h a (List.mem_cons_self _ _),
      ih (fun b hb => h b (List.mem_cons_of_mem _ hb))]

theorem abs_mul_le_of_le {a b : ℤ} {A B : ℤ} (ha : |a| ≤ A) (hb : |b| ≤ B) : |a * b| ≤ A * B := by
  rw [abs_mul]
  exact mul_le_mul ha hb (abs_nonneg _) (le_trans (abs_nonneg _) ha)

variable {K : Type} [LinearOrderedField K]

theorem Circle64_y_eq (rnd : K → K) (fuel : ℕ) (radius inner height : Num K) (hs xs : List K)
    (hhs : sweepLe64 rnd fuel 0 height.val = some hs)
    (hxs : sweepLe64 rnd fuel (-radius.val) radius.val = some xs) :
    Circle64 rnd fuel [radius.toVar, inner.toVar, height.toVar, .string "y"] =
      some (.vectors (hs.flatMap fun h => xs.flatMap fun x => xs.flatMap fun y =>
        if rnd (radius.val * radius.val) > rnd (rnd (x * x) + rnd (y * y)) ∧
            rnd (rnd (x * x) + rnd (y * y)) ≥
              rnd (rnd (radius.val - inner.val) * rnd (radius.val - inner.val)) then
          [⟨x, h, y⟩]
        else [])) := by
  have inner_body : ∀ h : K, (sweepLe64 rnd fuel (-radius.val) radius.val).bind (fun xs =>
      appendEach xs fun x =>
        (sweepLe64 rnd fuel (-radius.val) radius.val).map fun ys =>
          ys.flatMap fun y =>
            if rnd (radius.val * radius.val) > rnd (rnd (x * x) + rnd (y * y)) ∧
                rnd (rnd (x * x) + rnd (y * y)) ≥
                  rnd (rnd (radius.val - inner.val) * rnd (radius.val - inner.val)) then
              [(⟨x, h, y⟩ : Vector K)]
            else []) =
      some (xs.flatMap fun x => xs.flatMap fun y =>
        if rnd (radius.val * radius.val) > rnd (rnd (x * x) + rnd (y * y)) ∧
            rnd (rnd (x * x) + rnd (y * y)) ≥
              rnd (rnd (radius.val - inner.val) * rnd (radius.val - inner.val)) then
          [⟨x, h, y⟩]
        else []) := by
    intro h
    rw [hxs, Option.some_bind]
    exact appendEach_eq_some _ _ _ (fun x _ => rfl)
  simp only [Circle64, getFloat_three, List.take, List.length_cons, List.length_nil]
  simp [hhs]
  exact appendEach_eq_some _ _ _ (fun h _ => inner_body h)

theorem circle_test_intCast (rnd : K → K) (hrnd : ∀ z : ℤ, |z| ≤ 2 ^ 53 → rnd (z : K) = z)
    {a b x y : ℤ} (ha : |a| ≤ 2 ^ 25) (hb : |b| ≤ 2 ^ 25) (hx : |x| ≤ 2 ^ 25)
    (hy : |y| ≤ 2 ^ 25) :
    rnd ((a : K) * a) = (a : K) * a ∧
      rnd (rnd ((x : K) * x) + rnd ((y : K) * y)) = (x : K) * x + (y : K) * y ∧
      rnd (rnd ((a : K) - b) * rnd ((a : K) - b)) = ((a : K) - b) * ((a : K) - b) := by
  have haa : |a * a| ≤ 2 ^ 53 := le_trans (abs_mul_le_of_le ha ha) (by norm_num)
  have hxx : |x * x| ≤ 2 ^ 50 := le_trans (abs_mul_le_of_le hx hx) (by norm_num)
  have hyy : |y * y| ≤ 2 ^ 50 := le_trans (abs_mul_le_of_le hy hy) (by norm_num)
  have hs : |x * x + y * y| ≤ 2 ^ 53 := le_trans (abs_add _ _) (by linarith)
  have hab : |a - b| ≤ 2 ^ 26 := le_trans (abs_sub _ _) (by linarith)
  have hab2 : |(a - b) * (a - b)| ≤ 2 ^ 53 := le_trans (abs_mul_le_of_le hab hab) (by norm_num)
  have e1 := hrnd (a * a) haa
  have e2 := hrnd (x * x) (le_trans hxx (by norm_num))
  have e3 := hrnd (y * y) (le_trans hyy (by norm_num))
  have e4 := hrnd (x * x + y * y) hs
  have e5 := hrnd (a - b) (le_trans hab (by norm_num))
  have e6 := hrnd ((a - b) * (a - b)) hab2
  push_cast at e1 e2 e3 e4 e5 e6
  refine ⟨e1, ?_, ?_⟩
  · rw [e2, e3, e4]
  · rw [e5, e6]

theorem Sphere64_eq (rnd : K → K) (fuel : ℕ) (r ir : Num K) (xs : List K)
    (hr : ¬ r.val < ir.val) (hxs : sweepLt64 rnd fuel (-r.val) r.val = some xs) :
    Sphere64 rnd fuel [r.toVar, ir.toVar] =
      some (.vectors (xs.flatMap fun x => xs.flatMap fun y => xs.flatMap fun z =>
        if rnd (r.val * r.val) ≥ rnd (rnd (rnd (x * x) + rnd (y * y)) + rnd (z * z)) ∧
            rnd (rnd (rnd (x * x) + rnd (y * y)) + rnd (z * z)) ≥ rnd (ir.val * ir.val) then
          [⟨x, y, z⟩]
        else [])) := by
  simp only [Sphere64, getFloat_two, if_neg hr]
  simp [hxs]
  exact appendEach_eq_some _ _ _ (fun x _ => appendEach_eq_some _ _ _ (fun y _ => rfl))

theorem sphere_test_intCast (rnd : K → K) (hrnd : ∀ z : ℤ, |z| ≤ 2 ^ 53 → rnd (z : K) = z)
    {a b x y z : ℤ} (ha : |a| ≤ 2 ^ 25) (hb : |b| ≤ 2 ^ 25) (hx : |x| ≤ 2 ^ 25)
    (hy : |y| ≤ 2 ^ 25) (hz : |z| ≤ 2 ^ 25) :
    rnd ((a : K) * a) = (a : K) * a ∧
      rnd (rnd (rnd ((x : K) * x) + rnd ((y : K) * y)) + rnd ((z : K) * z)) =
        (x : K) * x + (y : K) * y + (z : K) * z ∧
      rnd ((b : K) * b) = (b : K) * b := by
  have haa : |a * a| ≤ 2 ^ 50 := le_trans (abs_mul_le_of_le ha ha) (by norm_num)
  have hbb : |b * b| ≤ 2 ^ 50 := le_trans (abs_mul_le_of_le hb hb) (by norm_num)
  have hxx : |x * x| ≤ 2 ^ 50 := le_trans (abs_mul_le_of_le hx hx) (by norm_num)
  have hyy : |y * y| ≤ 2 ^ 50 := le_trans (abs_mul_le_of_le hy hy) (by norm_num)
  have hzz : |z * z| ≤ 2 ^ 50 := le_trans (abs_mul_le_of_le hz hz) (by norm_num)
  have hs : |x * x + y * y| ≤ 2 ^ 51 := le_trans (abs_add _ _) (by linarith)
  have hs3 : |x * x + y * y + z * z| ≤ 2 ^ 53 := le_trans (abs_add _ _) (by linarith)
  have e1 := hrnd (a * a) (le_trans haa (by norm_num))
  have e2 := hrnd (x * x) (le_trans hxx (by norm_num))
  have e3 := hrnd (y * y) (le_trans hyy (by norm_num))
  have e4 := hrnd (z * z) (le_trans hzz (by norm_num))
  have e5 := hrnd (x * x + y * y) (le_trans hs (by norm_num))
  have e6 := hrnd (x * x + y * y + z * z) hs3
  have e7 := hrnd (b * b) (le_trans hbb (by norm_num))
  push_cast at e1 e2 e3 e4 e5 e6 e7
  refine ⟨e1, ?_, e7⟩
  rw [e2, e3, e5, e4, e6]

theorem sweepLe64_terminates (rnd : K → K) (hi : K) (fuel : ℕ) :
    ∀ lo : K, (∀ t, lo ≤ t → t ≤ hi → t + 1 / 2 ≤ rnd (t + 1)) →
      2 * (hi - lo) + 2 ≤ fuel → 0 < fuel → ∃ l, sweepLe64 rnd fuel lo hi = some l := by
  induction fuel with
  | zero => intro lo _ _ h; exact absurd h (lt_irrefl _)
  | succ fuel ih =>
    intro lo hstep hfuel _
    by_cases h : lo ≤ hi
    · have hgain := hstep lo le_rfl h
      have hf : 2 * (hi - rnd (lo + 1)) + 2 ≤ (fuel : K) := by
        push_cast at hfuel
        linarith
      have hpos : 0 < fuel := by
        rcases Nat.eq_zero_or_pos fuel with h0 | h0
        · rw [h0] at hfuel
          push_cast at hfuel
          linarith
        · exact h0
      obtain ⟨l, hl⟩ := ih (rnd (lo + 1))
        (fun t ht ht' => hstep t (by linarith) ht') hf hpos
      exact ⟨lo :: l, by rw [sweepLe64, if_pos h, hl]; rfl⟩
    · exact ⟨[], by rw [sweepLe64, if_neg h]⟩

theorem sweepLt64_terminates (rnd : K → K) (hi : K) (fuel : ℕ) :
    ∀ lo : K, (∀ t, lo ≤ t → t < hi → t + 1 / 2 ≤ rnd (t + 1)) →
      2 * (hi - lo) + 2 ≤ fuel → 0 < fuel → ∃ l, sweepLt64 rnd fuel lo hi = some l := by
  induction fuel with
  | zero => intro lo _ _ h; exact absurd h (lt_irrefl _)
  | succ fuel ih =>
    intro lo hstep hfuel _
    by_cases h : lo < hi
    · have hgain := hstep lo le_rfl h
      have hf : 2 * (hi - rnd (lo + 1)) + 2 ≤ (fuel : K) := by
        push_cast at hfuel
        linarith
      have hpos : 0 < fuel := by
        rcases Nat.eq_zero_or_pos fuel with h0 | h0
        · rw [h0] at hfuel
          push_cast at hfuel
          linarith
        · exact h0
      obtain ⟨l, hl⟩ := ih (rnd (lo + 1))
        (fun t ht ht' => hstep t (by linarith) ht') hf hpos
      exact ⟨lo :: l, by rw [sweepLt64, if_pos h, hl]; rfl⟩
    · exact ⟨[], by rw [sweepLt64, if_neg h]⟩

theorem sweepLt64_step {rnd : K → K} {fuel : ℕ} {x hi : K} {l : List K} (x' : K) (hx : x < hi)
    (hx' : rnd (x + 1) = x') (h : sweepLt64 rnd fuel x' hi = some l) :
    sweepLt64 rnd (fuel + 1) x hi = some (x :: l) := by
  rw [sweepLt64, if_pos hx, hx', h]
  rfl

theorem sweepLt64_stop {rnd : K → K} {fuel : ℕ} {x hi : K} (hx : ¬ x < hi) :
    sweepLt64 rnd (fuel + 1) x hi = some [] := by
  rw [sweepLt64, if_neg hx]

theorem mem_sweepLe64_first (rnd : K → K) {fuel : ℕ} {lo hi : K} {l : List K}
    (h : sweepLe64 rnd fuel lo hi = some l) (hlo : lo ≤ hi) : lo ∈ l := by
  cases fuel with
  | zero => simp [sweepLe64] at h
  | succ fuel =>
    rw [sweepLe64, if_pos hlo] at h
    obtain ⟨l', -, rfl⟩ := Option.map_eq_some'.1 h
    exact List.mem_cons_self _ _

theorem mem_sweepLe64_second (rnd : K → K) {fuel : ℕ} {lo hi : K} {l : List K}
    (h : sweepLe64 rnd fuel lo hi = some l) (hlo : lo ≤ hi) (hlo' : rnd (lo + 1) ≤ hi) :
    rnd (lo + 1) ∈ l := by
  cases fuel with
  | zero => simp [sweepLe64] at h
  | succ fuel =>
    rw [sweepLe64, if_pos hlo] at h
    obtain ⟨l', hl', rfl⟩ := Option.map_eq_some'.1 h
    exact List.mem_cons_of_mem _ (mem_sweepLe64_first rnd hl' hlo')

theorem Ellipse64_z_eq (rnd : K → K) (fuel : ℕ) (width length height : Num K)
    (hs is js : List K) (hhs : sweepLe64 rnd fuel 0 height.val = some hs)
    (his : sweepLe64 rnd fuel (-length.val) length.val = some is)
    (hjs : sweepLe64 rnd fuel (-width.val) width.val = some js) :
    Ellipse64 rnd fuel [width.toVar, length.toVar, height.toVar, .string "z"] =
      some (.vectors (hs.flatMap fun h => is.flatMap fun i => js.flatMap fun j =>
        if rnd (length.val * length.val) ≠ 0 ∧ rnd (width.val * width.val) ≠ 0 ∧
            rnd (rnd (rnd (rnd (i * i) * 1) / rnd (length.val * length.val)) +
              rnd (rnd (rnd (j * j) * 1) / rnd (width.val * width.val))) < 1 then
          [⟨i, h, j⟩]
        else [])) := by
  simp only [Ellipse64, getFloat_three, List.take, List.length_cons, List.length_nil]
  simp [hhs, his, hjs]
  exact appendEach_eq_some _ _ _ (fun h _ => appendEach_eq_some _ _ _ (fun i _ => rfl))

variable [FloorRing K]

theorem sweepLe64_intCast (rnd : K → K) (hi : ℤ) (fuel : ℕ) :
    ∀ lo : ℤ, (∀ z : ℤ, lo < z → z ≤ hi + 1 → rnd (z : K) = z) → (hi - lo + 1).toNat < fuel →
      sweepLe64 rnd fuel (lo : K) hi = some (sweepLe (lo : K) hi) := by
  induction fuel with
  | zero => intro lo _ h; omega
  | succ fuel ih =>
    intro lo hrnd hfuel
    by_cases h : lo ≤ hi
    · have hK : (lo : K) ≤ hi := by exact_mod_cast h
      have hstep : rnd ((lo : K) + 1) = ((lo + 1 : ℤ) : K) := by
        have := hrnd (lo + 1) (by omega) (by omega)
        push_cast at this ⊢
        exact this
      rw [sweepLe64, if_pos hK, hstep,
        ih (lo + 1) (fun z hz hz' => hrnd z (by omega) hz') (by omega), sweepLe_cons hK]
      push_cast
      rfl
    · have hK : (hi : K) < lo := by exact_mod_cast not_le.1 h
      rw [sweepLe64, if_neg (not_le.2 hK), sweepLe_nil hK]

theorem sweepLt64_intCast (rnd : K → K) (hi : ℤ) (fuel : ℕ) :
    ∀ lo : ℤ, (∀ z : ℤ, lo < z → z ≤ hi → rnd (z : K) = z) → (hi - lo).toNat < fuel →
      sweepLt64 rnd fuel (lo : K) hi = some (sweepLt (lo : K) hi) := by
  induction fuel with
  | zero => intro lo _ h; omega
  | succ fuel ih =>
    intro lo hrnd hfuel
    by_cases h : lo < hi
    · have hK : (lo : K) < hi := by exact_mod_cast h
      have hstep : rnd ((lo : K) + 1) = ((lo + 1 : ℤ) : K) := by
        have := hrnd (lo + 1) (by omega) (by omega)
        push_cast at this ⊢
        exact this
      rw [sweepLt64, if_pos hK, hstep,
        ih (lo + 1) (fun z hz hz' => hrnd z (by omega) hz') (by omega), sweepLt_cons hK]
      push_cast
      rfl
    · have hK : (hi : K) ≤ lo := by exact_mod_cast not_lt.1 h
      rw [sweepLt64, if_neg (not_lt.2 hK), sweepLt_nil hK]

theorem mem_sweepLe_intCast {lo hi : ℤ} {x : K} (hx : x ∈ sweepLe (lo : K) hi) :
    ∃ z : ℤ, lo ≤ z ∧ z ≤ hi ∧ x = z := by
  obtain ⟨k, rfl, hk⟩ := mem_sweepLe.1 hx
  refine ⟨lo + k, by omega, ?_, by push_cast; rfl⟩
  have : ((lo + k : ℤ) : K) ≤ hi := by push_cast; exact hk
  exact_mod_cast this

theorem mem_sweepLt_intCast {lo hi : ℤ} {x : K} (hx : x ∈ sweepLt (lo : K) hi) :
    ∃ z : ℤ, lo ≤ z ∧ z < hi ∧ x = z := by
  obtain ⟨k, rfl, hk⟩ := mem_sweepLt.1 hx
  refine ⟨lo + k, by omega, ?_, by push_cast; rfl⟩
  have : ((lo + k : ℤ) : K) < hi := by push_cast; exact hk
  exact_mod_cast this

theorem Circle64_y_intCast (rnd : K → K) (hrnd : ∀ z : ℤ, |z| ≤ 2 ^ 53 → rnd (z : K) = z)
    (fuel : ℕ) (radius inner height : Num K) (a b c : ℤ)
    (hr : radius.val = a) (hi : inner.val = b) (hh : height.val = c)
    (ha : |a| ≤ 2 ^ 25) (hb : |b| ≤ 2 ^ 25) (hc : |c| ≤ 2 ^ 25) (hfuel : 2 ^ 27 ≤ fuel) :
    Circle64 rnd fuel [radius.toVar, inner.toVar, height.toVar, .string "y"] =
      Circle [radius.toVar, inner.toVar, height.toVar, .string "y"] := by
  have ha' := abs_le.1 ha
  have hc' := abs_le.1 hc
  have hhs : sweepLe64 rnd fuel 0 height.val = some (sweepLe 0 height.val) := by
    rw [hh]
    have := sweepLe64_intCast rnd c fuel 0
      (fun z h1 h2 => hrnd z (abs_le.2 ⟨by omega, by omega⟩)) (by omega)
    simpa using this
  have hxs : sweepLe64 rnd fuel (-radius.val) radius.val =
      some (sweepLe (-radius.val) radius.val) := by
    rw [hr]
    have := sweepLe64_intCast rnd a fuel (-a)
      (fun z h1 h2 => hrnd z (abs_le.2 ⟨by omega, by omega⟩)) (by omega)
    simpa using this
  rw [Circle64_y_eq rnd fuel radius inner height _ _ hhs hxs, Circle_y_eq, hr, hi]
  congr 2
  refine flatMap_congr_mem _ _ _ (fun h _ => flatMap_congr_mem _ _ _ (fun x hx =>
    flatMap_congr_mem _ _ _ (fun y hy => ?_)))
  have hx' : x ∈ sweepLe (((-a : ℤ) : K)) a := by simpa using hx
  have hy' : y ∈ sweepLe (((-a : ℤ) : K)) a := by simpa using hy
  obtain ⟨zx, hx1, hx2, rfl⟩ := mem_sweepLe_intCast hx'
  obtain ⟨zy, hy1, hy2, rfl⟩ := mem_sweepLe_intCast hy'
  obtain ⟨e1, e2, e3⟩ := circle_test_intCast rnd hrnd ha hb
    (abs_le.2 ⟨by omega, by omega⟩ : |zx| ≤ 2 ^ 25) (abs_le.2 ⟨by omega, by omega⟩ : |zy| ≤ 2 ^ 25)
  rw [e1, e2, e3]

theorem Sphere64_intCast (rnd : K → K) (hrnd : ∀ z : ℤ, |z| ≤ 2 ^ 53 → rnd (z : K) = z)
    (fuel : ℕ) (r ir : Num K) (a b : ℤ) (hr : r.val = a) (hir : ir.val = b)
    (ha : |a| ≤ 2 ^ 25) (hb : |b| ≤ 2 ^ 25) (hfuel : 2 ^ 27 ≤ fuel) :
    Sphere64 rnd fuel [r.toVar, ir.toVar] = Sphere [r.toVar, ir.toVar] := by
  have ha' := abs_le.1 ha
  by_cases hlt : r.val < ir.val
  · simp [Sphere64, Sphere, getFloat_two, hlt]
  have hxs : sweepLt64 rnd fuel (-r.val) r.val = some (sweepLt (-r.val) r.val) := by
    rw [hr]
    have := sweepLt64_intCast rnd a fuel (-a)
      (fun z h1 h2 => hrnd z (abs_le.2 ⟨by omega, by omega⟩)) (by omega)
    simpa using this
  rw [Sphere64_eq rnd fuel r ir _ hlt hxs, Sphere_eq, if_neg hlt, hr, hir]
  congr 2
  refine flatMap_congr_mem _ _ _ (fun x hx => flatMap_congr_mem _ _ _ (fun y hy =>
    flatMap_congr_mem _ _ _ (fun z hz => ?_)))
  have hx' : x ∈ sweepLt (((-a : ℤ) : K)) a := by simpa using hx
  have hy' : y ∈ sweepLt (((-a : ℤ) : K)) a := by simpa using hy
  have hz' : z ∈ sweepLt (((-a : ℤ) : K)) a := by simpa using hz
  obtain ⟨zx, hx1, hx2, rfl⟩ := mem_sweepLt_intCast hx'
  obtain ⟨zy, hy1, hy2, rfl⟩ := mem_sweepLt_intCast hy'
  obtain ⟨zz, hz1, hz2, rfl⟩ := mem_sweepLt_intCast hz'
  obtain ⟨e1, e2, e3⟩ := sphere_test_intCast rnd hrnd ha hb
    (abs_le.2 ⟨by omega, by omega⟩ : |zx| ≤ 2 ^ 25) (abs_le.2 ⟨by omega, by omega⟩ : |zy| ≤ 2 ^ 25)
    (abs_le.2 ⟨by omega, by omega⟩ : |zz| ≤ 2 ^ 25)
  rw [e1, e2, e3]

theorem round64_step {t : ℚ} (h1 : -2 ^ 52 ≤ t) (h2 : t ≤ 2 ^ 52) :
    t + 1 / 2 ≤ round64 (t + 1) := by
  have h := abs_le.1 (abs_round64_sub_le (q := t + 1)
    (abs_lt.2 ⟨by linarith, by linarith⟩))
  linarith [h.1]

theorem sweepLe64_round64_terminates {lo hi : ℚ} {fuel : ℕ} (hlo : -2 ^ 50 ≤ lo)
    (hhi : hi ≤ 2 ^ 50) (hfuel : 2 ^ 53 ≤ fuel) : ∃ l, sweepLe64 round64 fuel lo hi = some l := by
  have hf : (2 : ℚ) ^ 53 ≤ fuel := by exact_mod_cast hfuel
  refine sweepLe64_terminates round64 hi fuel lo
    (fun t ht ht' => round64_step (by linarith) (by linarith)) (by linarith) (by omega)

end Float64Lemmas

/-! ## Rounding by `round64`: values at the inputs used below -/

section Round64Lemmas

theorem round64_natCast (n : ℕ) (hn : n ≤ 2 ^ 53) : round64 (n : ℚ) = n := by
  have := round64_intCast (n : ℤ) (by rw [abs_of_nonneg (Int.natCast_nonneg n)]; exact_mod_cast hn)
  simpa using this

theorem val_int (n : ℤ) (hn : |n| ≤ 2 ^ 53) : (Num.int n : Num ℚ).val = n := by
  rw [Num.val, float64OfInt_eq_self n hn]

theorem sweepLe64_round64_intCast (lo hi : ℤ) (fuel : ℕ) (hlo : -2 ^ 25 ≤ lo) (hhi : hi ≤ 2 ^ 25)
    (hfuel : 2 ^ 27 ≤ fuel) :
    sweepLe64 round64 fuel (lo : ℚ) hi = some (sweepLe (lo : ℚ) hi) :=
  sweepLe64_intCast round64 hi fuel lo
    (fun z h1 h2 => round64_intCast z (abs_le.2 ⟨by omega, by omega⟩)) (by omega)

theorem sweepLt64_round64_terminates {lo hi : ℚ} {fuel : ℕ} (hlo : -2 ^ 50 ≤ lo)
    (hhi : hi ≤ 2 ^ 50) (hfuel : 2 ^ 53 ≤ fuel) : ∃ l, sweepLt64 round64 fuel lo hi = some l := by
  have hf : (2 : ℚ) ^ 53 ≤ fuel := by exact_mod_cast hfuel
  refine sweepLt64_terminates round64 hi fuel lo
    (fun t ht ht' => round64_step (by linarith) (by linarith)) (by linarith) (by omega)

/-- The `float64` conversion of `2 ^ 53 + 1` is `2 ^ 53`: a tie, rounded to the even significand. -/
theorem float64OfInt_above : float64OfInt 9007199254740993 = 9007199254740992 := by
  have h : round64 ((9007199254740993 : ℤ) : ℚ) = 9007199254740992 := by
    rw [round64_eq (q := ((9007199254740993 : ℤ) : ℚ)) (e := 53) (by norm_num [abs_of_pos])
      (by norm_num [abs_of_pos]) (by norm_num),
      roundHalfEven_tie_down (z := 2 ^ 52) (by norm_num) (by norm_num)]
    norm_num
  rw [float64OfInt, h]
  exact Int.floor_eq_iff.2 ⟨by norm_num, by norm_num⟩

theorem float64OfInt_below : float64OfInt (-9007199254740993) = -9007199254740992 := by
  have h : round64 ((-9007199254740993 : ℤ) : ℚ) = -9007199254740992 := by
    rw [round64_eq (q := ((-9007199254740993 : ℤ) : ℚ)) (e := 53) (by norm_num [abs_of_neg])
      (by norm_num [abs_of_neg]) (by norm_num),
      roundHalfEven_tie_up (z := -2 ^ 52) (by norm_num) (by norm_num)]
    norm_num
  rw [float64OfInt, h]
  exact Int.floor_eq_iff.2 ⟨by norm_num, by norm_num⟩

/-- The `float64` value `1.9999999999999998` is `2 - 2 ^ (-52)`. -/
theorem round64_two_sub : round64 (2 - 1 / 2 ^ 52) = 2 - 1 / 2 ^ 52 := by
  have h := round64_eq_self (2 ^ 53 - 1) (-52) (by norm_num) (by norm_num)
  have e : ((2 ^ 53 - 1 : ℤ) : ℚ) * 2 ^ (-52 : ℤ) = 2 - 1 / 2 ^ 52 := by
    rw [zpow_neg]; norm_num
  rwa [e] at h

/-- The difference `5 - 1.9999999999999998` rounds to `3`: a tie, rounded to the even
significand. -/
theorem round64_five_sub : round64 (5 - (2 - 1 / 2 ^ 52)) = 3 := by
  rw [round64_eq (q := 5 - (2 - 1 / 2 ^ 52)) (e := 1) (by norm_num [abs_of_pos])
    (by norm_num [abs_of_pos]) (by norm_num),
    roundHalfEven_tie_down (z := 3 * 2 ^ 51) (by norm_num) (by norm_num)]
  norm_num

/-- A multiple of `2 ^ (-51)` with a significand below `2 ^ 53` is a `float64`. -/
theorem round64_div_two_pow (m : ℤ) (hm : |m| < 2 ^ 53) :
    round64 ((m : ℚ) / 2 ^ 51) = (m : ℚ) / 2 ^ 51 := by
  have h := round64_eq_self m (-51) hm (by norm_num)
  have e : (m : ℚ) * 2 ^ (-51 : ℤ) = (m : ℚ) / 2 ^ 51 := by
    rw [zpow_neg, div_eq_mul_inv]; norm_num
  rwa [e] at h

/-- The `float64` value `3.0000000000000004` is `3 + 2 ^ (-51)`. -/
theorem round64_three_add : round64 (3 + 1 / 2 ^ 51) = 3 + 1 / 2 ^ 51 := by
  have h := round64_div_two_pow (3 * 2 ^ 51 + 1) (by norm_num)
  have e : (((3 * 2 ^ 51 + 1 : ℤ) : ℚ)) / 2 ^ 51 = 3 + 1 / 2 ^ 51 := by norm_num
  rwa [e] at h

/-- The sweep of `Sphere` for the radius `3.0000000000000004`, which is `3 + 2 ^ (-51)`. -/
theorem sweepLt64_three :
    sweepLt64 round64 (2 ^ 27) (-(3 + 1 / 2 ^ 51)) (3 + 1 / 2 ^ 51) =
      some [-(3 + 1 / 2 ^ 51), -(2 + 1 / 2 ^ 51), -(1 + 1 / 2 ^ 51), -(1 / 2 ^ 51),
        1 - 1 / 2 ^ 51, 2 - 1 / 2 ^ 51, 3 - 1 / 2 ^ 51] := by
  have step : ∀ (m m' : ℤ), |m'| < 2 ^ 53 → (m : ℚ) / 2 ^ 51 + 1 = (m' : ℚ) / 2 ^ 51 →
      round64 ((m : ℚ) / 2 ^ 51 + 1) = (m' : ℚ) / 2 ^ 51 := fun m m' hm' h => by
    rw [h, round64_div_two_pow m' hm']
  have e0 : (-(3 + 1 / 2 ^ 51) : ℚ) = ((-(3 * 2 ^ 51 + 1) : ℤ) : ℚ) / 2 ^ 51 := by norm_num
  have e1 : (-(2 + 1 / 2 ^ 51) : ℚ) = ((-(2 * 2 ^ 51 + 1) : ℤ) : ℚ) / 2 ^ 51 := by norm_num
  have e2 : (-(1 + 1 / 2 ^ 51) : ℚ) = ((-(2 ^ 51 + 1) : ℤ) : ℚ) / 2 ^ 51 := by norm_num
  have e3 : (-(1 / 2 ^ 51) : ℚ) = ((-1 : ℤ) : ℚ) / 2 ^ 51 := by norm_num
  have e4 : (1 - 1 / 2 ^ 51 : ℚ) = ((2 ^ 51 - 1 : ℤ) : ℚ) / 2 ^ 51 := by norm_num
  have e5 : (2 - 1 / 2 ^ 51 : ℚ) = ((2 * 2 ^ 51 - 1 : ℤ) : ℚ) / 2 ^ 51 := by norm_num
  have e6 : (3 - 1 / 2 ^ 51 : ℚ) = ((3 * 2 ^ 51 - 1 : ℤ) : ℚ) / 2 ^ 51 := by norm_num
  have e7 : (4 - 1 / 2 ^ 51 : ℚ) = ((4 * 2 ^ 51 - 1 : ℤ) : ℚ) / 2 ^ 51 := by norm_num
  have hfuel : (2 ^ 27 : ℕ) = (2 ^ 27 - 8) + 1 + 1 + 1 + 1 + 1 + 1 + 1 + 1 := by norm_num
  rw [hfuel]
  refine sweepLt64_step (-(2 + 1 / 2 ^ 51)) (by norm_num) ?_ ?_
  · rw [e0, e1]; exact step _ _ (by norm_num) (by norm_num)
  refine sweepLt64_step (-(1 + 1 / 2 ^ 51)) (by norm_num) ?_ ?_
  · rw [e1, e2]; exact step _ _ (by norm_num) (by norm_num)
  refine sweepLt64_step (-(1 / 2 ^ 51)) (by norm_num) ?_ ?_
  · rw [e2, e3]; exact step _ _ (by norm_num) (by norm_num)
  refine sweepLt64_step (1 - 1 / 2 ^ 51) (by norm_num) ?_ ?_
  · rw [e3, e4]; exact step _ _ (by norm_num) (by norm_num)
  refine sweepLt64_step (2 - 1 / 2 ^ 51) (by norm_num) ?_ ?_
  · rw [e4, e5]; exact step _ _ (by norm_num) (by norm_num)
  refine sweepLt64_step (3 - 1 / 2 ^ 51) (by norm_num) ?_ ?_
  · rw [e5, e6]; exact step _ _ (by norm_num) (by norm_num)
  refine sweepLt64_step (4 - 1 / 2 ^ 51) (by norm_num) ?_ ?_
  · rw [e6, e7]; exact step _ _ (by norm_num) (by norm_num)
  exact sweepLt64_stop (by norm_num)
/-- The square of `3 + 2 ^ (-51)` rounds to `9 + 2 ^ (-48)`, below the exact square. -/
theorem round64_three_sq :
    round64 ((3 + 1 / 2 ^ 51) * (3 + 1 / 2 ^ 51)) = 9 + 1 / 2 ^ 48 := by
  rw [round64_eq (q := (3 + 1 / 2 ^ 51) * (3 + 1 / 2 ^ 51)) (e := 3) (by norm_num [abs_of_pos])
    (by norm_num [abs_of_pos]) (by norm_num),
    roundHalfEven_eq_of_abs_lt (z := 9 * 2 ^ 49 + 2) (by norm_num [abs_lt])]
  norm_num

theorem round64_three_sq_add :
    round64 (9 + 1 / 2 ^ 48 + 1 / 2 ^ 102) = 9 + 1 / 2 ^ 48 := by
  rw [round64_eq (q := 9 + 1 / 2 ^ 48 + 1 / 2 ^ 102) (e := 3) (by norm_num [abs_of_pos])
    (by norm_num [abs_of_pos]) (by norm_num),
    roundHalfEven_eq_of_abs_lt (z := 9 * 2 ^ 49 + 2) (by norm_num [abs_lt])]
  norm_num

theorem round64_two_pow_neg : round64 (1 / 2 ^ 102) = 1 / 2 ^ 102 := by
  have h := round64_eq_self 1 (-102) (by norm_num) (by norm_num)
  have e : ((1 : ℤ) : ℚ) * 2 ^ (-102 : ℤ) = 1 / 2 ^ 102 := by
    rw [zpow_neg]; norm_num
  rwa [e] at h

/-! The roundings in the test of `Ellipse` at width `49.494897427831845`, which is
`3482893775198819 / 2 ^ 46`, length `5`, `i = 1` and `j = -width + 1`. -/

theorem round64_width :
    round64 (3482893775198819 / 2 ^ 46) = 3482893775198819 / 2 ^ 46 := by
  have h := round64_eq_self 3482893775198819 (-46) (by norm_num) (by norm_num)
  have e : ((3482893775198819 : ℤ) : ℚ) * 2 ^ (-46 : ℤ) = 3482893775198819 / 2 ^ 46 := by
    rw [zpow_neg]; norm_num
  rwa [e] at h

theorem round64_width_sq :
    round64 ((3482893775198819 / 2 ^ 46) * (3482893775198819 / 2 ^ 46)) =
      5387045942359362 / 2 ^ 41 := by
  rw [round64_eq (q := (3482893775198819 / 2 ^ 46) * (3482893775198819 / 2 ^ 46)) (e := 11)
    (by norm_num [abs_of_pos]) (by norm_num [abs_of_pos]) (by norm_num),
    roundHalfEven_eq_of_abs_lt (z := 5387045942359362) (by norm_num [abs_lt])]
  norm_num

theorem round64_width_step :
    round64 (-(3482893775198819 / 2 ^ 46) + 1) = -(3482893775198819 / 2 ^ 46) + 1 := by
  have h := round64_eq_self (-3412525031021155) (-46) (by norm_num) (by norm_num)
  have e : ((-3412525031021155 : ℤ) : ℚ) * 2 ^ (-46 : ℤ) = -(3482893775198819 / 2 ^ 46) + 1 := by
    rw [zpow_neg]; norm_num
  rwa [e] at h

theorem round64_depth_sq :
    round64 ((-(3482893775198819 / 2 ^ 46) + 1) * (-(3482893775198819 / 2 ^ 46) + 1)) =
      5171564104664987 / 2 ^ 41 := by
  rw [round64_eq (q := (-(3482893775198819 / 2 ^ 46) + 1) * (-(3482893775198819 / 2 ^ 46) + 1))
    (e := 11) (by norm_num [abs_of_pos]) (by norm_num [abs_of_pos]) (by norm_num),
    roundHalfEven_eq_of_abs_lt (z := 5171564104664987) (by norm_num [abs_lt])]
  norm_num

theorem round64_depth_sq_one :
    round64 (5171564104664987 / 2 ^ 41 * 1) = 5171564104664987 / 2 ^ 41 := by
  have h := round64_eq_self 5171564104664987 (-41) (by norm_num) (by norm_num)
  have e : ((5171564104664987 : ℤ) : ℚ) * 2 ^ (-41 : ℤ) = 5171564104664987 / 2 ^ 41 * 1 := by
    rw [zpow_neg]; norm_num
  rw [e] at h
  rw [h, mul_one]

theorem round64_one_div : round64 (1 / 25) = 5764607523034235 / 2 ^ 57 := by
  rw [round64_eq (q := 1 / 25) (e := -5) (by norm_num [abs_of_pos]) (by norm_num [abs_of_pos])
    (by norm_num),
    roundHalfEven_eq_of_abs_lt (z := 5764607523034235) (by norm_num [abs_lt])]
  norm_num

theorem round64_depth_div :
    round64 (5171564104664987 / 2 ^ 41 / (5387045942359362 / 2 ^ 41)) =
      8646911284551351 / 2 ^ 53 := by
  rw [round64_eq (q := 5171564104664987 / 2 ^ 41 / (5387045942359362 / 2 ^ 41)) (e := -1)
    (by norm_num [abs_of_pos]) (by norm_num [abs_of_pos]) (by norm_num),
    roundHalfEven_eq_of_abs_lt (z := 8646911284551351) (by norm_num [abs_lt])]
  norm_num

theorem round64_depth_sum :
    round64 (5764607523034235 / 2 ^ 57 + 8646911284551351 / 2 ^ 53) =
      9007199254740991 / 2 ^ 53 := by
  rw [round64_eq (q := 5764607523034235 / 2 ^ 57 + 8646911284551351 / 2 ^ 53) (e := -1)
    (by norm_num [abs_of_pos]) (by norm_num [abs_of_pos]) (by norm_num),
    roundHalfEven_eq_of_abs_lt (z := 9007199254740991) (by norm_num [abs_lt])]
  norm_num

/-- One term of the test of `Ellipse`: the exact quotient `a / l2` against the rounded one. -/
theorem ellipse_term_bound {a l2 A' A LL P : ℚ} (hl2 : 1 ≤ l2)
    (hA' : a * (1 - 1 / 2 ^ 53) - 1 / 2 ^ 100 ≤ A')
    (hA : A' * (1 - 1 / 2 ^ 53) - 1 / 2 ^ 100 ≤ A)
    (hLL0 : 0 < LL) (hLL : LL ≤ l2 * (1 + 1 / 2 ^ 53) + 1 / 2 ^ 100) (hP0 : 0 ≤ P)
    (hP : A / LL * (1 - 1 / 2 ^ 53) - 1 / 2 ^ 100 ≤ P) :
    a / l2 ≤ (1 + 5 / 2 ^ 53) * P + 5 / 2 ^ 100 := by
  have hl0 : 0 < l2 := by linarith
  rw [div_le_iff₀ hl0]
  have h1 : A * (1 - 1 / 2 ^ 53) ≤ (P + 1 / 2 ^ 100) * LL := by
    have : A / LL * (1 - 1 / 2 ^ 53) ≤ P + 1 / 2 ^ 100 := by linarith
    have h2 : A * (1 - 1 / 2 ^ 53) / LL ≤ P + 1 / 2 ^ 100 := by
      rw [div_mul_eq_mul_div] at this; exact this
    exact (div_le_iff₀ hLL0).1 h2
  have h2 : (P + 1 / 2 ^ 100) * LL ≤ (P + 1 / 2 ^ 100) * (l2 * (1 + 1 / 2 ^ 53) + 1 / 2 ^ 100) :=
    mul_le_mul_of_nonneg_left hLL (by positivity)
  have h3 : 0 ≤ (l2 - 1) * P := mul_nonneg (by linarith) hP0
  nlinarith [h1, h2, h3, hA, hA']


/-- The test of `Ellipse` in `float64` arithmetic against the exact sum of the quotients. -/
theorem ellipse_test_bound {i j l w : ℚ} (hl : 1 ≤ l) (hw : 1 ≤ w)
    (hLL : round64 (l * l) ≠ 0) (hWW : round64 (w * w) ≠ 0)
    (h : round64 (round64 (round64 (round64 (i * i) * 1) / round64 (l * l)) +
      round64 (round64 (round64 (j * j) * 1) / round64 (w * w))) < 1) :
    i * i / (l * l) + j * j / (w * w) < 1 + 1 / 2 ^ 50 := by
  have hll : 1 ≤ l * l := by nlinarith
  have hww : 1 ≤ w * w := by nlinarith
  have hLL0 : 0 < round64 (l * l) :=
    lt_of_le_of_ne (round64_nonneg (by linarith)) (Ne.symm hLL)
  have hWW0 : 0 < round64 (w * w) :=
    lt_of_le_of_ne (round64_nonneg (by linarith)) (Ne.symm hWW)
  have hi := round64_lower (mul_self_nonneg i)
  have hj := round64_lower (mul_self_nonneg j)
  have hi1 := round64_lower (mul_nonneg hi.1 zero_le_one)
  have hj1 := round64_lower (mul_nonneg hj.1 zero_le_one)
  have hP := round64_lower (div_nonneg hi1.1 hLL0.le)
  have hQ := round64_lower (div_nonneg hj1.1 hWW0.le)
  have hF := round64_lower (add_nonneg hP.1 hQ.1)
  have b1 := ellipse_term_bound hll hi.2 (by rw [mul_one] at hi1; rw [mul_one]; exact hi1.2)
    hLL0 (round64_upper (by linarith)) hP.1 hP.2
  have b2 := ellipse_term_bound hww hj.2 (by rw [mul_one] at hj1; rw [mul_one]; exact hj1.2)
    hWW0 (round64_upper (by linarith)) hQ.1 hQ.2
  have hF2 := hF.2
  linarith

end Round64Lemmas

/-! ## The disk rasterizer `Circle` -/

section CircleClaims

variable {K : Type} [LinearOrderedField K] [FloorRing K]

/-- In exact arithmetic `Circle` with radius `R > 0`, inner radius `R`, height `0` and facing `"y"`
returns the brute-force filter of the full grid by `x * x + y * y < R * R`, and with inner radius
`0` the empty sequence. -/
theorem Circle_y_disk_exact (R zero : Num K) (hR : 0 < R.val) (hz : zero.val = 0) :
    Circle [R.toVar, R.toVar, zero.toVar, .string "y"] = some (.vectors (bruteDisk R.val)) ∧
      Circle [R.toVar, zero.toVar, zero.toVar, .string "y"] = some (.vectors []) := by
  refine ⟨?_, Circle_y_inner_zero R zero zero hz⟩
  have key := flatMap_flatMap_ite (sweepLe (-R.val) R.val) (sweepLe (-R.val) R.val)
    (fun x y => x * x + y * y < R.val * R.val) (fun x y => (⟨x, 0, y⟩ : Vector K))
  rw [Circle_y_eq, hz, sweepLe_zero_zero, bruteDisk, gridAxis_eq_sweepLe hR, ← key]
  simp only [List.flatMap_cons, List.flatMap_nil, List.append_nil, sub_self, mul_zero]
  congr 3
  funext x
  congr 1
  funext y
  have h0 : x * x + y * y ≥ 0 := add_nonneg (mul_self_nonneg x) (mul_self_nonneg y)
  simp [h0]

/-- Claim C1, amended: for every natural-number radius `R` with `0 < R ≤ 2 ^ 25`, given as an
integer or as a float, `Circle` in `float64` arithmetic (each loop allowed at least `2 ^ 27`
tests) called with radius `R`, inner radius `R`, height `0` and facing `"y"` returns exactly the
brute-force filter of the full grid `[-R, R] × [-R, R]` by `x * x + y * y < R * R`, as points
`(x, 0, y)`; called with inner radius `0` it returns the empty sequence. -/
theorem Circle_y_disk (R : ℕ) (r zero : Num ℚ) (fuel : ℕ) (hr : r.val = R) (hz : zero.val = 0)
    (hR : 0 < R) (hR' : R ≤ 2 ^ 25) (hfuel : 2 ^ 27 ≤ fuel) :
    Circle64 round64 fuel [r.toVar, r.toVar, zero.toVar, .string "y"] =
        some (.vectors (bruteDisk (R : ℚ))) ∧
      Circle64 round64 fuel [r.toVar, zero.toVar, zero.toVar, .string "y"] = some (.vectors []) := by
  have hR2 : |(R : ℤ)| ≤ 2 ^ 25 := by
    rw [abs_of_nonneg (Int.natCast_nonneg R)]; exact_mod_cast hR'
  have hr' : r.val = ((R : ℤ) : ℚ) := by rw [hr]; norm_cast
  have hz' : zero.val = ((0 : ℤ) : ℚ) := by rw [hz]; norm_cast
  have hpos : 0 < r.val := by rw [hr]; exact_mod_cast hR
  rw [Circle64_y_intCast round64 round64_intCast fuel r r zero R R 0 hr' hr' hz' hR2 hR2
      (by norm_num) hfuel,
    Circle64_y_intCast round64 round64_intCast fuel r zero zero R 0 0 hr' hz' hz' hR2
      (by norm_num) (by norm_num) hfuel, ← hr]
  exact Circle_y_disk_exact r zero hpos hz

/-- Witness of `Circle_y_disk` at radius `2`. -/
theorem Circle_y_disk_witness :
    Circle64 round64 (2 ^ 27) [.int 2, .int 2, .int 0, .string "y"] =
        some (.vectors (bruteDisk (2 : ℚ))) ∧
      Circle64 (K := ℚ) round64 (2 ^ 27) [.int 2, .int 0, .int 0, .string "y"] =
        some (.vectors []) := by
  simpa [Num.toVar, Num.val] using
    Circle_y_disk 2 (.int 2) (.int 0) (2 ^ 27) (by norm_num [Num.val]) (by norm_num [Num.val])
      (by norm_num) (by norm_num) le_rfl

/-- Claim C1 as stated fails at radius `2`: with inner radius `0` the output is empty, while the
brute-force disk contains the centre `(0, 0, 0)`. -/
theorem Circle_y_disk_counterexample :
    Circle64 (K := ℚ) round64 (2 ^ 27) [.int 2, .int 0, .int 0, .string "y"] = some (.vectors []) ∧
      (⟨0, 0, 0⟩ : Vector ℚ) ∈ bruteDisk 2 ∧
      Circle64 (K := ℚ) round64 (2 ^ 27) [.int 2, .int 0, .int 0, .string "y"] ≠
        some (.vectors (bruteDisk 2)) := by
  have hempty : Circle64 (K := ℚ) round64 (2 ^ 27) [.int 2, .int 0, .int 0, .string "y"] =
      some (.vectors []) := by
    have h64 := Circle64_y_intCast (K := ℚ) round64 round64_intCast (2 ^ 27) (.int 2) (.int 0)
      (.int 0) 2 0 0 (by norm_num [Num.val]) (by norm_num [Num.val]) (by norm_num [Num.val])
      (by norm_num) (by norm_num) (by norm_num) le_rfl
    have h := Circle_y_inner_zero (K := ℚ) (.int 2) (.int 0) (.int 0) (by norm_num [Num.val])
    rw [h] at h64
    simpa [Num.toVar] using h64
  have hax : (0 : ℚ) ∈ gridAxis (2 : ℚ) :=
    List.mem_map.2 ⟨2, List.mem_range.2 (by norm_num; decide), by norm_num⟩
  have hmem : (⟨0, 0, 0⟩ : Vector ℚ) ∈ bruteDisk 2 :=
    List.mem_map.2 ⟨(0, 0),
      List.mem_filter.2 ⟨List.pair_mem_product.2 ⟨hax, hax⟩, by norm_num⟩, rfl⟩
  refine ⟨hempty, hmem, fun h => ?_⟩
  rw [hempty, Option.some.injEq, Variable.vectors.injEq] at h
  rw [← h] at hmem
  exact List.not_mem_nil _ hmem

/-- Membership in the output of `Circle` with facing `"y"`, in exact arithmetic. -/
theorem Circle_y_mem_exact (radius inner height : Num K) :
    (∃ pts, Circle [radius.toVar, inner.toVar, height.toVar, .string "y"] = some (.vectors pts) ∧
      ∀ x h y : K, (⟨x, h, y⟩ : Vector K) ∈ pts ↔
        ∃ m k l : ℕ, h = 0 + m ∧ x = -radius.val + k ∧ y = -radius.val + l ∧
          h ≤ height.val ∧ x ≤ radius.val ∧ y ≤ radius.val ∧
          radius.val * radius.val > x * x + y * y ∧
          x * x + y * y ≥ (radius.val - inner.val) * (radius.val - inner.val)) ∧
    (∃ pts, Circle [radius.toVar, radius.toVar, height.toVar, .string "y"] = some (.vectors pts) ∧
      ∀ x h y : K, (⟨x, h, y⟩ : Vector K) ∈ pts ↔
        ∃ m k l : ℕ, h = 0 + m ∧ x = -radius.val + k ∧ y = -radius.val + l ∧
          h ≤ height.val ∧ x ≤ radius.val ∧ y ≤ radius.val ∧
          radius.val * radius.val > x * x + y * y) := by
  have main : ∀ inner : Num K,
      ∃ pts, Circle [radius.toVar, inner.toVar, height.toVar, .string "y"] = some (.vectors pts) ∧
      ∀ x h y : K, (⟨x, h, y⟩ : Vector K) ∈ pts ↔
        ∃ m k l : ℕ, h = 0 + m ∧ x = -radius.val + k ∧ y = -radius.val + l ∧
          h ≤ height.val ∧ x ≤ radius.val ∧ y ≤ radius.val ∧
          radius.val * radius.val > x * x + y * y ∧
          x * x + y * y ≥ (radius.val - inner.val) * (radius.val - inner.val) := by
    intro inner
    refine ⟨_, Circle_y_eq radius inner height, fun x h y => ?_⟩
    simp only [List.mem_flatMap, mem_sweepLe]
    constructor
    · rintro ⟨h', ⟨m, rfl, hm⟩, x', ⟨k, rfl, hk⟩, y', ⟨l, rfl, hl⟩, hmem⟩
      split_ifs at hmem with hc
      · simp only [List.mem_singleton, Vector.mk.injEq] at hmem
        obtain ⟨rfl, rfl, rfl⟩ := hmem
        exact ⟨m, k, l, rfl, rfl, rfl, hm, hk, hl, hc.1, hc.2⟩
      · simp at hmem
    · rintro ⟨m, k, l, rfl, rfl, rfl, hm, hk, hl, h1, h2⟩
      refine ⟨_, ⟨m, rfl, hm⟩, _, ⟨k, rfl, hk⟩, _, ⟨l, rfl, hl⟩, ?_⟩
      rw [if_pos ⟨h1, h2⟩]
      exact List.mem_singleton.2 rfl
  refine ⟨main inner, ?_⟩
  obtain ⟨pts, hpts, hmem⟩ := main radius
  refine ⟨pts, hpts, fun x h y => ?_⟩
  rw [hmem]
  have h0 : x * x + y * y ≥ (radius.val - radius.val) * (radius.val - radius.val) := by
    rw [sub_self, mul_zero]
    exact add_nonneg (mul_self_nonneg x) (mul_self_nonneg y)
  simp only [h0, and_true]

/-- Claim C2, amended: for integer-valued radius, inner radius and height of magnitude at most
`2 ^ 25`, a point `(x, h, y)` occurs in the output of `Circle` in `float64` arithmetic (each loop
allowed at least `2 ^ 27` tests) with facing `"y"` if and only if `h = 0 + m`, `x = -radius + k`, `y = -radius + l` for naturals `m, k, l` with
`h ≤ height`, `x ≤ radius`, `y ≤ radius`, `radius * radius > x * x + y * y` and
`x * x + y * y ≥ (radius - inner) * (radius - inner)`; when the inner radius is the radius the
lower bound is vacuous and the output is the filled disk. -/
theorem Circle_y_mem (radius inner height : Num ℚ) (a b c : ℤ) (fuel : ℕ)
    (hr : radius.val = a) (hi : inner.val = b) (hh : height.val = c)
    (ha : |a| ≤ 2 ^ 25) (hb : |b| ≤ 2 ^ 25) (hc : |c| ≤ 2 ^ 25) (hfuel : 2 ^ 27 ≤ fuel) :
    (∃ pts, Circle64 round64 fuel [radius.toVar, inner.toVar, height.toVar, .string "y"] =
        some (.vectors pts) ∧
      ∀ x h y : ℚ, (⟨x, h, y⟩ : Vector ℚ) ∈ pts ↔
        ∃ m k l : ℕ, h = 0 + m ∧ x = -radius.val + k ∧ y = -radius.val + l ∧
          h ≤ height.val ∧ x ≤ radius.val ∧ y ≤ radius.val ∧
          radius.val * radius.val > x * x + y * y ∧
          x * x + y * y ≥ (radius.val - inner.val) * (radius.val - inner.val)) ∧
    (∃ pts, Circle64 round64 fuel [radius.toVar, radius.toVar, height.toVar, .string "y"] =
        some (.vectors pts) ∧
      ∀ x h y : ℚ, (⟨x, h, y⟩ : Vector ℚ) ∈ pts ↔
        ∃ m k l : ℕ, h = 0 + m ∧ x = -radius.val + k ∧ y = -radius.val + l ∧
          h ≤ height.val ∧ x ≤ radius.val ∧ y ≤ radius.val ∧
          radius.val * radius.val > x * x + y * y) := by
  rw [Circle64_y_intCast round64 round64_intCast fuel radius inner height a b c hr hi hh ha hb hc
      hfuel,
    Circle64_y_intCast round64 round64_intCast fuel radius radius height a a c hr hr hh ha ha hc
      hfuel]
  exact Circle_y_mem_exact radius inner height

/-- Witness of `Circle_y_mem` at radius `2`, inner radius `1`, height `0`. -/
theorem Circle_y_mem_witness :
    (∃ pts, Circle64 round64 (2 ^ 27) [.int 2, .int 1, .int 0, .string "y"] =
        some (.vectors pts) ∧
      ∀ x h y : ℚ, (⟨x, h, y⟩ : Vector ℚ) ∈ pts ↔
        ∃ m k l : ℕ, h = 0 + m ∧ x = -2 + k ∧ y = -2 + l ∧
          h ≤ 0 ∧ x ≤ 2 ∧ y ≤ 2 ∧ 2 * 2 > x * x + y * y ∧
          x * x + y * y ≥ (2 - 1) * (2 - 1)) := by
  have h := (Circle_y_mem (.int 2) (.int 1) (.int 0) 2 1 0 (2 ^ 27) (by norm_num [Num.val])
    (by norm_num [Num.val]) (by norm_num [Num.val]) (by norm_num) (by norm_num) (by norm_num)
    le_rfl).1
  simpa [Num.toVar, Num.val] using h

/-- Claim C2 as stated fails on `Circle(5, 1.9999999999999998, 0, "y")`, the inner radius being
the `float64` value `2 - 2 ^ (-52)`: the difference `radius - inner` rounds to `3`, the point
`(3, 0, 0)` passes the test and is returned, and `3 * 3 + 0 * 0` is less than
`(radius - inner) * (radius - inner)`. -/
theorem Circle_y_mem_counterexample :
    round64 (2 - 1 / 2 ^ 52) = 2 - 1 / 2 ^ 52 ∧
    ∃ pts, Circle64 round64 (2 ^ 27) [.int 5, .float (2 - 1 / 2 ^ 52), .int 0, .string "y"] =
        some (.vectors pts) ∧
      (⟨3, 0, 0⟩ : Vector ℚ) ∈ pts ∧
      ¬ ((3 : ℚ) * 3 + 0 * 0 ≥ (5 - (2 - 1 / 2 ^ 52)) * (5 - (2 - 1 / 2 ^ 52))) := by
  refine ⟨round64_two_sub, ?_⟩
  have h5 : (Num.int 5 : Num ℚ).val = 5 := by simpa using val_int 5 (by norm_num)
  have h0 : (Num.int 0 : Num ℚ).val = 0 := by simpa using val_int 0 (by norm_num)
  have hhs : sweepLe64 round64 (2 ^ 27) 0 (Num.int 0 : Num ℚ).val = some (sweepLe 0 0) := by
    rw [h0]
    simpa using sweepLe64_round64_intCast 0 0 (2 ^ 27) (by norm_num) (by norm_num) le_rfl
  have hxs : sweepLe64 round64 (2 ^ 27) (-(Num.int 5 : Num ℚ).val) (Num.int 5 : Num ℚ).val =
      some (sweepLe (-5) 5) := by
    rw [h5]
    simpa using sweepLe64_round64_intCast (-5) 5 (2 ^ 27) (by norm_num) (by norm_num) le_rfl
  have key := Circle64_y_eq round64 (2 ^ 27) (.int 5) (.float (2 - 1 / 2 ^ 52)) (.int 0) _ _
    hhs hxs
  refine ⟨_, key, ?_, by norm_num⟩
  have m0 : (0 : ℚ) ∈ sweepLe (0 : ℚ) 0 := mem_sweepLe.2 ⟨0, by norm_num, le_rfl⟩
  have m3 : (3 : ℚ) ∈ sweepLe (-5 : ℚ) 5 := mem_sweepLe.2 ⟨8, by norm_num, by norm_num⟩
  have m0' : (0 : ℚ) ∈ sweepLe (-5 : ℚ) 5 := mem_sweepLe.2 ⟨5, by norm_num, by norm_num⟩
  refine List.mem_flatMap.2 ⟨0, m0, List.mem_flatMap.2 ⟨3, m3, List.mem_flatMap.2 ⟨0, m0', ?_⟩⟩⟩
  have e25 : round64 25 = 25 := by simpa using round64_natCast 25 (by norm_num)
  have e9 : round64 9 = 9 := by simpa using round64_natCast 9 (by norm_num)
  have e0 : round64 0 = 0 := by simpa using round64_natCast 0 (by norm_num)
  rw [if_pos]
  · exact List.mem_singleton.2 rfl
  · rw [h5]
    simp only [Num.val]
    rw [round64_five_sub]
    norm_num [e25, e9, e0]

/-- Claim C3: on the same numeric parameters `Circle` with facing `"x"` returns the same point
sequence, in the same order, as `Circle` with facing `"z"`, although the `"x"` branch sweeps `y`
over `[-radius, radius)` and the `"z"` branch over `[-radius, radius]`: at `y = radius` the strict
outer bound fails. -/
theorem Circle_x_eq_z (radius inner height : Num K) :
    Circle [radius.toVar, inner.toVar, height.toVar, .string "x"] =
        Circle [radius.toVar, inner.toVar, height.toVar, .string "z"] ∧
      ∃ pts, Circle [radius.toVar, inner.toVar, height.toVar, .string "x"] =
        some (.vectors pts) := by
  refine ⟨?_, _, Circle_x_eq radius inner height⟩
  rw [Circle_x_eq, Circle_z_eq]
  congr 3
  funext h
  congr 1
  funext x
  symm
  apply flatMap_sweepLe_eq_sweepLt
  rw [if_neg]
  rintro ⟨h1, -⟩
  have := mul_self_nonneg x
  linarith

end CircleClaims

/-! ## The sphere rasterizer `Sphere` -/

section SphereClaims

variable {K : Type} [LinearOrderedField K] [FloorRing K]

/-- Claim C4, amended: with `r` and `ir` the `float64` values of the two numeric parameters
(`float64(n)` for an integer `n`), `Sphere` returns a failure if and only if `r < ir`, whatever the
bound on its loops; when `r ≤ 2 ^ 50` and the loops are allowed `2 ^ 53` tests it returns a point
sequence if and only if `r ≥ ir`; and `Sphere(2, 3)` fails. -/
theorem Sphere_fails_iff (r ir : Num ℚ) :
    (∀ n : ℕ, (∃ e, Sphere64 round64 n [r.toVar, ir.toVar] = some (.err e)) ↔ r.val < ir.val) ∧
      (∀ fuel : ℕ, r.val ≤ 2 ^ 50 → 2 ^ 53 ≤ fuel →
        ((∃ pts, Sphere64 round64 fuel [r.toVar, ir.toVar] = some (.vectors pts)) ↔
          r.val ≥ ir.val)) ∧
      ∀ n : ℕ, ∃ e, Sphere64 (K := ℚ) round64 n [.int 2, .int 3] = some (.err e) := by
  have hfail : ∀ (p q : Num ℚ) (n : ℕ), p.val < q.val →
      Sphere64 round64 n [p.toVar, q.toVar] = some (.err (.sphere q.val p.val)) := fun p q n h => by
    simp [Sphere64, getFloat_two, h, Throw]
  refine ⟨fun n => ⟨?_, fun h => ⟨_, hfail r ir n h⟩⟩, fun fuel hhi hfuel => ⟨?_, fun h => ?_⟩,
    fun n => ?_⟩
  · rintro ⟨e, he⟩
    by_contra h
    simp only [Sphere64, getFloat_two, if_neg h] at he
    obtain ⟨l, -, hl⟩ := Option.bind_eq_some.1 he
    obtain ⟨pts, -, hpts⟩ := Option.map_eq_some'.1 hl
    cases hpts
  · rintro ⟨pts, hpts⟩
    by_contra h
    rw [hfail r ir fuel (not_le.1 h)] at hpts
    simp at hpts
  · obtain ⟨xs, hxs⟩ := sweepLt64_round64_terminates (by linarith : -2 ^ 50 ≤ -r.val) hhi hfuel
    exact ⟨_, Sphere64_eq round64 fuel r ir xs (not_lt.2 h) hxs⟩
  · have h := hfail (.int 2) (.int 3) n (by norm_num [Num.val])
    exact ⟨_, by simpa [Num.toVar] using h⟩

/-- Witness of `Sphere_fails_iff`: `Sphere(2, 3)` fails and `Sphere(1, 0)` returns a point
sequence. -/
theorem Sphere_fails_iff_witness :
    (∃ e, Sphere64 (K := ℚ) round64 (2 ^ 53) [.int 2, .int 3] = some (.err e)) ∧
      ∃ pts, Sphere64 (K := ℚ) round64 (2 ^ 53) [.int 1, .int 0] = some (.vectors pts) := by
  have h := Sphere_fails_iff (.int 1) (.int 0)
  refine ⟨h.2.2 (2 ^ 53), ?_⟩
  simpa [Num.toVar, Num.val] using h.2.1 (2 ^ 53) (by norm_num [Num.val]) le_rfl

/-- Claim C4 as stated fails on `Sphere(-9007199254740993, -9007199254740992)`, both integers: the
radius is less than the inner radius, both convert to the `float64` value `-2 ^ 53`, and the
result is the empty point sequence. -/
theorem Sphere_fails_iff_counterexample :
    (-9007199254740993 : ℤ) < -9007199254740992 ∧
      Sphere64 (K := ℚ) round64 (2 ^ 53) [.int (-9007199254740993), .int (-9007199254740992)] =
        some (.vectors []) := by
  refine ⟨by norm_num, ?_⟩
  have hr : (Num.int (-9007199254740993) : Num ℚ).val = -9007199254740992 := by
    rw [Num.val, float64OfInt_below]; norm_num
  have hir : (Num.int (-9007199254740992) : Num ℚ).val = -9007199254740992 := by
    have := val_int (-9007199254740992) (by norm_num)
    rw [this]; norm_num
  have hfuel : (2 ^ 53 : ℕ) = (2 ^ 53 - 1) + 1 := by norm_num
  have hxs : sweepLt64 round64 (2 ^ 53) (-(Num.int (-9007199254740993) : Num ℚ).val)
      (Num.int (-9007199254740993) : Num ℚ).val = some [] := by
    rw [hfuel, hr]
    exact sweepLt64_stop (by norm_num)
  have key := Sphere64_eq round64 (2 ^ 53) (.int (-9007199254740993)) (.int (-9007199254740992))
    [] (by rw [hr, hir]; exact lt_irrefl _) hxs
  simpa [Num.toVar] using key

/-- Membership in the output of `Sphere`, in exact arithmetic. -/
theorem Sphere_mem_exact (r ir : Num K) (hr : r.val ≥ ir.val) :
    ∃ pts, Sphere [r.toVar, ir.toVar] = some (.vectors pts) ∧
      ∀ x y z : K, (⟨x, y, z⟩ : Vector K) ∈ pts ↔
        (∃ k : ℕ, x = -r.val + k) ∧ x < r.val ∧ (∃ k : ℕ, y = -r.val + k) ∧ y < r.val ∧
          (∃ k : ℕ, z = -r.val + k) ∧ z < r.val ∧
          r.val * r.val ≥ x * x + y * y + z * z ∧ x * x + y * y + z * z ≥ ir.val * ir.val := by
  refine ⟨_, by rw [Sphere_eq, if_neg (not_lt.2 hr)], fun x y z => ?_⟩
  simp only [List.mem_flatMap, mem_sweepLt]
  constructor
  · rintro ⟨x', ⟨k, rfl, hk⟩, y', ⟨l, rfl, hl⟩, z', ⟨m, rfl, hm⟩, hmem⟩
    split_ifs at hmem with hc
    · simp only [List.mem_singleton, Vector.mk.injEq] at hmem
      obtain ⟨rfl, rfl, rfl⟩ := hmem
      exact ⟨⟨k, rfl⟩, hk, ⟨l, rfl⟩, hl, ⟨m, rfl⟩, hm, hc.1, hc.2⟩
    · simp at hmem
  · rintro ⟨⟨k, rfl⟩, hk, ⟨l, rfl⟩, hl, ⟨m, rfl⟩, hm, h1, h2⟩
    refine ⟨_, ⟨k, rfl, hk⟩, _, ⟨l, rfl, hl⟩, _, ⟨m, rfl, hm⟩, ?_⟩
    rw [if_pos ⟨h1, h2⟩]
    exact List.mem_singleton.2 rfl

/-- Claim C5, amended: for integer-valued `r ≥ ir` of magnitude at most `2 ^ 25`, a point
`(x, y, z)` occurs in the output of `Sphere(r, ir)` in `float64` arithmetic (each loop allowed at
least `2 ^ 27` tests) if and only if each of `x, y, z` is `-r + k` for a natural `k` and strictly
less than `r`, and `r * r ≥ x * x + y * y + z * z` and `x * x + y * y + z * z ≥ ir * ir`. -/
theorem Sphere_mem (r ir : Num ℚ) (a b : ℤ) (fuel : ℕ) (hr : r.val = a) (hir : ir.val = b)
    (ha : |a| ≤ 2 ^ 25) (hb : |b| ≤ 2 ^ 25) (hle : b ≤ a) (hfuel : 2 ^ 27 ≤ fuel) :
    ∃ pts, Sphere64 round64 fuel [r.toVar, ir.toVar] = some (.vectors pts) ∧
      ∀ x y z : ℚ, (⟨x, y, z⟩ : Vector ℚ) ∈ pts ↔
        (∃ k : ℕ, x = -r.val + k) ∧ x < r.val ∧ (∃ k : ℕ, y = -r.val + k) ∧ y < r.val ∧
          (∃ k : ℕ, z = -r.val + k) ∧ z < r.val ∧
          r.val * r.val ≥ x * x + y * y + z * z ∧ x * x + y * y + z * z ≥ ir.val * ir.val := by
  rw [Sphere64_intCast round64 round64_intCast fuel r ir a b hr hir ha hb hfuel]
  exact Sphere_mem_exact r ir (by rw [hr, hir]; exact_mod_cast hle)

/-- Witness of `Sphere_mem` at `Sphere(1, 0)`. -/
theorem Sphere_mem_witness :
    ∃ pts, Sphere64 (K := ℚ) round64 (2 ^ 27) [.int 1, .int 0] = some (.vectors pts) ∧
      ∀ x y z : ℚ, (⟨x, y, z⟩ : Vector ℚ) ∈ pts ↔
        (∃ k : ℕ, x = -1 + k) ∧ x < 1 ∧ (∃ k : ℕ, y = -1 + k) ∧ y < 1 ∧
          (∃ k : ℕ, z = -1 + k) ∧ z < 1 ∧
          1 * 1 ≥ x * x + y * y + z * z ∧ x * x + y * y + z * z ≥ 0 * 0 := by
  simpa [Num.toVar, Num.val] using Sphere_mem (.int 1) (.int 0) 1 0 (2 ^ 27)
    (by norm_num [Num.val]) (by norm_num [Num.val]) (by norm_num) (by norm_num) (by norm_num)
    le_rfl

/-- Claim C5 as stated fails on `Sphere(3.0000000000000004, 0)`, the radius being the `float64`
value `r = 3 + 2 ^ (-51)`: the sweep reaches `-2 ^ (-51)`, the square `r * r` and the sum of the
squares at `(-r, -2 ^ (-51), -2 ^ (-51))` round to the same `float64`, the point is returned, and
`r * r` is less than the sum of the squares of its coordinates. -/
theorem Sphere_mem_counterexample :
    round64 (3 + 1 / 2 ^ 51) = 3 + 1 / 2 ^ 51 ∧
    ∃ pts, Sphere64 round64 (2 ^ 27) [.float (3 + 1 / 2 ^ 51), .int 0] = some (.vectors pts) ∧
      (⟨-(3 + 1 / 2 ^ 51), -(1 / 2 ^ 51), -(1 / 2 ^ 51)⟩ : Vector ℚ) ∈ pts ∧
      ¬ ((3 + 1 / 2 ^ 51 : ℚ) * (3 + 1 / 2 ^ 51) ≥
        -(3 + 1 / 2 ^ 51) * -(3 + 1 / 2 ^ 51) + -(1 / 2 ^ 51) * -(1 / 2 ^ 51) +
          -(1 / 2 ^ 51) * -(1 / 2 ^ 51)) := by
  refine ⟨round64_three_add, ?_⟩
  have h0 : (Num.int 0 : Num ℚ).val = 0 := by simpa using val_int 0 (by norm_num)
  have hr : (Num.float (3 + 1 / 2 ^ 51) : Num ℚ).val = 3 + 1 / 2 ^ 51 := rfl
  have key := Sphere64_eq round64 (2 ^ 27) (.float (3 + 1 / 2 ^ 51)) (.int 0) _
    (by rw [hr, h0]; norm_num) (by rw [hr]; exact sweepLt64_three)
  refine ⟨_, key, ?_, by norm_num⟩
  refine List.mem_flatMap.2 ⟨-(3 + 1 / 2 ^ 51), by simp, List.mem_flatMap.2
    ⟨-(1 / 2 ^ 51), by simp, List.mem_flatMap.2 ⟨-(1 / 2 ^ 51), by simp, ?_⟩⟩⟩
  have e0 : round64 0 = 0 := by simpa using round64_natCast 0 (by norm_num)
  have exx : (-(3 + 1 / 2 ^ 51) * -(3 + 1 / 2 ^ 51) : ℚ) = (3 + 1 / 2 ^ 51) * (3 + 1 / 2 ^ 51) := by
    ring
  have eyy : (-(1 / 2 ^ 51) * -(1 / 2 ^ 51) : ℚ) = 1 / 2 ^ 102 := by norm_num
  rw [if_pos]
  · exact List.mem_singleton.2 rfl
  · rw [hr, h0, exx, eyy, round64_three_sq, round64_two_pow_neg, round64_three_sq_add,
      round64_three_sq_add]
    norm_num [e0]

/-- Claim C7, amended: for integers `0 ≤ R ≤ 2 ^ 25` and `ir ≤ R` of magnitude at most `2 ^ 25`,
an integer lattice point `(x, y, z)` of the shell `ir * ir ≤ x * x + y * y + z * z ≤ R * R` occurs
in the output of `Sphere(R, ir)` in `float64` arithmetic (each loop allowed at least `2 ^ 27`
tests) if and only if each of its coordinates is less than `R`: the points of the shell with each
coordinate in the half-open range `[-R, R)` are returned, those with a coordinate equal to `R` are
not. -/
theorem Sphere_shell (R b : ℤ) (r ir : Num ℚ) (fuel : ℕ) (hr : r.val = R) (hir : ir.val = b)
    (hR : R ≤ 2 ^ 25) (hb : |b| ≤ 2 ^ 25) (hle : b ≤ R) (h0 : 0 ≤ R) (hfuel : 2 ^ 27 ≤ fuel) :
    ∃ pts, Sphere64 round64 fuel [r.toVar, ir.toVar] = some (.vectors pts) ∧
      ∀ x y z : ℤ, b * b ≤ x * x + y * y + z * z → x * x + y * y + z * z ≤ R * R →
        ((⟨x, y, z⟩ : Vector ℚ) ∈ pts ↔ x < R ∧ y < R ∧ z < R) := by
  have hR' : |R| ≤ 2 ^ 25 := by rw [abs_of_nonneg h0]; exact hR
  rw [Sphere64_intCast round64 round64_intCast fuel r ir R b hr hir hR' hb hfuel]
  obtain ⟨pts, hpts, hmem⟩ := Sphere_mem_exact r ir (by rw [hr, hir]; exact_mod_cast hle)
  refine ⟨pts, hpts, fun x y z h1 h2 => ?_⟩
  rw [hmem, hr, hir]
  have hform : ∀ t : ℤ, t * t ≤ R * R → ∃ k : ℕ, (t : ℚ) = -(R : ℚ) + k := fun t ht => by
    have hge : -R ≤ t := by nlinarith
    refine ⟨(t + R).toNat, ?_⟩
    have : ((t + R).toNat : ℤ) = t + R := Int.toNat_of_nonneg (by omega)
    have h' : (((t + R).toNat : ℤ) : ℚ) = ((t + R : ℤ) : ℚ) := by rw [this]
    push_cast at h'
    rw [h']; ring
  have hx : x * x ≤ R * R := by nlinarith [mul_self_nonneg y, mul_self_nonneg z]
  have hy : y * y ≤ R * R := by nlinarith [mul_self_nonneg x, mul_self_nonneg z]
  have hz : z * z ≤ R * R := by nlinarith [mul_self_nonneg x, mul_self_nonneg y]
  have e1 : (R : ℚ) * R ≥ (x : ℚ) * x + (y : ℚ) * y + (z : ℚ) * z := by exact_mod_cast h2
  have e2 : (x : ℚ) * x + (y : ℚ) * y + (z : ℚ) * z ≥ (b : ℚ) * b := by exact_mod_cast h1
  constructor
  · rintro ⟨-, hx', -, hy', -, hz', -⟩
    exact ⟨by exact_mod_cast hx', by exact_mod_cast hy', by exact_mod_cast hz'⟩
  · rintro ⟨hx', hy', hz'⟩
    exact ⟨hform x hx, by exact_mod_cast hx', hform y hy, by exact_mod_cast hy', hform z hz,
      by exact_mod_cast hz', e1, e2⟩

/-- Witness of `Sphere_shell` at `Sphere(1, 0)`. -/
theorem Sphere_shell_witness :
    ∃ pts, Sphere64 (K := ℚ) round64 (2 ^ 27) [.int 1, .int 0] = some (.vectors pts) ∧
      ∀ x y z : ℤ, 0 * 0 ≤ x * x + y * y + z * z → x * x + y * y + z * z ≤ 1 * 1 →
        ((⟨x, y, z⟩ : Vector ℚ) ∈ pts ↔ x < 1 ∧ y < 1 ∧ z < 1) := by
  simpa [Num.toVar] using Sphere_shell 1 0 (.int 1) (.int 0) (2 ^ 27) (by norm_num [Num.val])
    (by norm_num [Num.val]) (by norm_num) (by norm_num) (by norm_num) (by norm_num) le_rfl

/-- Claim C7 as stated fails on `Sphere(1, 0)`: the lattice point `(1, 0, 0)` lies in the shell
`0 * 0 ≤ x * x + y * y + z * z ≤ 1 * 1`, as does `(-1, 0, 0)`; the output contains `(-1, 0, 0)` and
not `(1, 0, 0)`. -/
theorem Sphere_shell_counterexample :
    ∃ pts, Sphere64 (K := ℚ) round64 (2 ^ 27) [.int 1, .int 0] = some (.vectors pts) ∧
      ((0 : ℤ) * 0 ≤ 1 * 1 + 0 * 0 + 0 * 0 ∧ (1 : ℤ) * 1 + 0 * 0 + 0 * 0 ≤ 1 * 1) ∧
      (⟨-1, 0, 0⟩ : Vector ℚ) ∈ pts ∧ (⟨1, 0, 0⟩ : Vector ℚ) ∉ pts := by
  have h64 := Sphere64_intCast (K := ℚ) round64 round64_intCast (2 ^ 27) (.int 1) (.int 0) 1 0
    (by norm_num [Num.val]) (by norm_num [Num.val]) (by norm_num) (by norm_num) le_rfl
  have h : Sphere64 (K := ℚ) round64 (2 ^ 27) [.int 1, .int 0] =
      some (.vectors [⟨-1, 0, 0⟩, ⟨0, -1, 0⟩, ⟨0, 0, -1⟩, ⟨0, 0, 0⟩]) := by
    rw [← Sphere_one_zero]; simpa [Num.toVar] using h64
  refine ⟨_, h, by norm_num, by simp, ?_⟩
  decide

end SphereClaims

/-! ## The elliptical cylinder `Ellipse` and the torus `Torus` -/

section EllipseTorusLemmas

theorem isqrt_natCast_sq (n : ℕ) : isqrt ((n : ℚ) * n) = n := by
  have h : ((n : ℚ) * n) = ((n * n : ℕ) : ℚ) := by push_cast; ring
  rw [isqrt, h, Int.floor_natCast, Int.toNat_natCast, Nat.sqrt_eq]

theorem isqrt_zero : isqrt 0 = 0 := by
  simpa using isqrt_natCast_sq 0

theorem isqrt_one : isqrt 1 = 1 := by
  simpa using isqrt_natCast_sq 1

theorem isqrt_two : isqrt 2 = 1 := by
  have h : (2 : ℚ) = ((2 : ℕ) : ℚ) := by norm_num
  rw [isqrt, h, Int.floor_natCast, Int.toNat_natCast]
  have : Nat.sqrt 2 = 1 := (Nat.eq_sqrt.2 ⟨by norm_num, by norm_num⟩).symm
  rw [this]; norm_num

theorem isqrt_nine : isqrt 9 = 3 := by
  have := isqrt_natCast_sq 3
  norm_num at this
  exact this

variable {K : Type} [LinearOrderedField K] [FloorRing K]

theorem Ellipse_z_eq (width length height : Num K) :
    Ellipse [width.toVar, length.toVar, height.toVar, .string "z"] =
      some (.vectors ((sweepLe 0 height.val).flatMap fun h =>
          (sweepLe (-length.val) length.val).flatMap fun i =>
            (sweepLe (-width.val) width.val).flatMap fun j =>
              if length.val * length.val ≠ 0 ∧ width.val * width.val ≠ 0 ∧
                  (i * i * 1) / (length.val * length.val) +
                    (j * j * 1) / (width.val * width.val) < 1 then
                [⟨i, h, j⟩]
              else [])) := by
  simp [Ellipse, getFloat_three]

theorem Torus_y_eq (sqrt : K → K) (R r : Num K) :
    Torus sqrt [R.toVar, r.toVar, .string "y"] =
      some (.vectors ((sweepLt (-R.val - r.val) (R.val + r.val)).flatMap fun x =>
          (sweepLt (-R.val - r.val) (R.val + r.val)).flatMap fun y =>
            let xyDist := sqrt (x * x + y * y)
            if xyDist > 0 then
              let ringx := x / xyDist * R.val
              let ringy := y / xyDist * R.val
              let ringDist := (x - ringx) * (x - ringx) + (y - ringy) * (y - ringy)
              (sweepLt (-R.val - r.val) (R.val + r.val)).flatMap fun z =>
                if ringDist + z * z ≤ r.val * r.val then [⟨x, y, z⟩] else []
            else [])) := by
  simp [Torus, getFloat_two]

/-- The output of `Ellipse(1, 2, 0, "z")`: the boundary points `(±2, 0, 0)` and `(0, 0, ±1)` of
the grid are left out. -/
theorem Ellipse_one_two_zero :
    Ellipse (K := ℚ) [.int 1, .int 2, .int 0, .string "z"] =
      some (.vectors [⟨-1, 0, 0⟩, ⟨0, 0, 0⟩, ⟨1, 0, 0⟩]) := by
  simp [Ellipse, getFloat, getFloatLoop]
  norm_num [sweepLe_cons, sweepLe_nil]

/-- The output of `Torus(0, 1, "y")` with the sample square root. -/
theorem Torus_zero_one :
    Torus isqrt [.int 0, .int 1, .string "y"] =
      some (.vectors [⟨-1, 0, 0⟩, ⟨0, -1, 0⟩]) := by
  simp [Torus, getFloat, getFloatLoop]
  norm_num [sweepLt_cons, sweepLt_nil, isqrt_zero, isqrt_one, isqrt_two]

end EllipseTorusLemmas

section EllipseTorusClaims

variable {K : Type} [LinearOrderedField K] [FloorRing K]

/-- Claim C8, amended: for every width and length from `1` to `2 ^ 50` and every height up to
`2 ^ 50`, `Ellipse(w, l, h, "z")` in `float64` arithmetic, its loops allowed `2 ^ 53` tests,
returns a point sequence, and every point `(i, hh, j)` in it passed the test as `float64`
evaluates it, each operation rounded, and has `i * i / (l * l) + j * j / (w * w) < 1 + 2 ^ (-50)`
in exact arithmetic. -/
theorem Ellipse_z_interior (width length height : Num ℚ) (fuel : ℕ)
    (hw : 1 ≤ width.val) (hl : 1 ≤ length.val) (hw' : width.val ≤ 2 ^ 50)
    (hl' : length.val ≤ 2 ^ 50) (hh : height.val ≤ 2 ^ 50) (hfuel : 2 ^ 53 ≤ fuel) :
    ∃ pts, Ellipse64 round64 fuel [width.toVar, length.toVar, height.toVar, .string "z"] =
        some (.vectors pts) ∧
      ∀ i hh j : ℚ, (⟨i, hh, j⟩ : Vector ℚ) ∈ pts →
        round64 (round64 (round64 (round64 (i * i) * 1) / round64 (length.val * length.val)) +
            round64 (round64 (round64 (j * j) * 1) / round64 (width.val * width.val))) < 1 ∧
          i * i / (length.val * length.val) + j * j / (width.val * width.val) <
            1 + 1 / 2 ^ 50 := by
  obtain ⟨hs, hhs⟩ := sweepLe64_round64_terminates (by norm_num : (-2 ^ 50 : ℚ) ≤ 0) hh hfuel
  obtain ⟨is, his⟩ := sweepLe64_round64_terminates (by linarith : -2 ^ 50 ≤ -length.val) hl' hfuel
  obtain ⟨js, hjs⟩ := sweepLe64_round64_terminates (by linarith : -2 ^ 50 ≤ -width.val) hw' hfuel
  refine ⟨_, Ellipse64_z_eq round64 fuel width length height hs is js hhs his hjs,
    fun i hh j hmem => ?_⟩
  simp only [List.mem_flatMap] at hmem
  obtain ⟨h', -, i', -, j', -, hmem⟩ := hmem
  split_ifs at hmem with hc
  · simp only [List.mem_singleton, Vector.mk.injEq] at hmem
    obtain ⟨rfl, rfl, rfl⟩ := hmem
    exact ⟨hc.2.2, ellipse_test_bound hl hw hc.1 hc.2.1 hc.2.2⟩
  · simp at hmem

/-- Witness of `Ellipse_z_interior` at width `1`, length `2`, height `0`. -/
theorem Ellipse_z_interior_witness :
    ∃ pts, Ellipse64 (K := ℚ) round64 (2 ^ 53) [.int 1, .int 2, .int 0, .string "z"] =
        some (.vectors pts) ∧
      ∀ i hh j : ℚ, (⟨i, hh, j⟩ : Vector ℚ) ∈ pts →
        round64 (round64 (round64 (round64 (i * i) * 1) / round64 (2 * 2)) +
            round64 (round64 (round64 (j * j) * 1) / round64 (1 * 1))) < 1 ∧
          i * i / (2 * 2) + j * j / (1 * 1) < 1 + 1 / 2 ^ 50 := by
  simpa [Num.toVar, Num.val] using Ellipse_z_interior (.int 1) (.int 2) (.int 0) (2 ^ 53)
    (by norm_num [Num.val]) (by norm_num [Num.val]) (by norm_num [Num.val])
    (by norm_num [Num.val]) (by norm_num [Num.val]) le_rfl

/-- Claim C8 as stated fails on `Ellipse(49.494897427831845, 5, 0, "z")`, the width being the
`float64` value `w = 3482893775198819 / 2 ^ 46`: the point `(1, 0, -w + 1)` is returned, its test
value rounding to `1 - 2 ^ (-53)`, and `1 * 1 / (5 * 5) + (-w + 1) * (-w + 1) / (w * w)` exceeds
`1`. -/
theorem Ellipse_z_interior_counterexample :
    round64 (3482893775198819 / 2 ^ 46) = 3482893775198819 / 2 ^ 46 ∧
    ∃ pts, Ellipse64 round64 (2 ^ 53)
        [.float (3482893775198819 / 2 ^ 46), .int 5, .int 0, .string "z"] = some (.vectors pts) ∧
      (⟨1, 0, -(3482893775198819 / 2 ^ 46) + 1⟩ : Vector ℚ) ∈ pts ∧
      ¬ ((1 : ℚ) * 1 / (5 * 5) +
        (-(3482893775198819 / 2 ^ 46) + 1) * (-(3482893775198819 / 2 ^ 46) + 1) /
          ((3482893775198819 / 2 ^ 46) * (3482893775198819 / 2 ^ 46)) < 1) := by
  refine ⟨round64_width, ?_⟩
  have h5 : (Num.int 5 : Num ℚ).val = 5 := by simpa using val_int 5 (by norm_num)
  have h0 : (Num.int 0 : Num ℚ).val = 0 := by simpa using val_int 0 (by norm_num)
  have hw : (Num.float (3482893775198819 / 2 ^ 46) : Num ℚ).val = 3482893775198819 / 2 ^ 46 := rfl
  have hhs : sweepLe64 round64 (2 ^ 53) 0 (Num.int 0 : Num ℚ).val = some (sweepLe 0 0) := by
    rw [h0]
    simpa using sweepLe64_round64_intCast 0 0 (2 ^ 53) (by norm_num) (by norm_num) (by norm_num)
  have his : sweepLe64 round64 (2 ^ 53) (-(Num.int 5 : Num ℚ).val) (Num.int 5 : Num ℚ).val =
      some (sweepLe (-5) 5) := by
    rw [h5]
    simpa using sweepLe64_round64_intCast (-5) 5 (2 ^ 53) (by norm_num) (by norm_num) (by norm_num)
  have hjs' : ∃ js, sweepLe64 round64 (2 ^ 53)
      (-(Num.float (3482893775198819 / 2 ^ 46) : Num ℚ).val)
      (Num.float (3482893775198819 / 2 ^ 46) : Num ℚ).val = some js :=
    sweepLe64_round64_terminates (by rw [hw]; norm_num) (by rw [hw]; norm_num) le_rfl
  obtain ⟨js, hjs⟩ := hjs'
  have key := Ellipse64_z_eq round64 (2 ^ 53) (.float (3482893775198819 / 2 ^ 46)) (.int 5)
    (.int 0) _ _ js hhs his hjs
  refine ⟨_, key, ?_, by norm_num⟩
  have m0 : (0 : ℚ) ∈ sweepLe (0 : ℚ) 0 := mem_sweepLe.2 ⟨0, by norm_num, le_rfl⟩
  have m1 : (1 : ℚ) ∈ sweepLe (-5 : ℚ) 5 := mem_sweepLe.2 ⟨6, by norm_num, by norm_num⟩
  have mj : (-(3482893775198819 / 2 ^ 46) + 1 : ℚ) ∈ js := by
    have h := mem_sweepLe64_second round64 hjs (by rw [hw]; norm_num)
      (by rw [hw, round64_width_step]; norm_num)
    rwa [hw, round64_width_step] at h
  refine List.mem_flatMap.2 ⟨0, m0, List.mem_flatMap.2 ⟨1, m1, List.mem_flatMap.2 ⟨_, mj, ?_⟩⟩⟩
  have e1 : round64 ((1 : ℚ) * 1) = 1 := by simpa using round64_natCast 1 (by norm_num)
  have e25 : round64 ((5 : ℚ) * 5) = 25 := by
    have := round64_natCast 25 (by norm_num)
    norm_num at this ⊢; exact this
  rw [if_pos]
  · exact List.mem_singleton.2 rfl
  · rw [h5, hw, e25, round64_width_sq, e1, e1, round64_one_div, round64_depth_sq,
      round64_depth_sq_one, round64_depth_div, round64_depth_sum]
    norm_num

/-- Claim C9: for every numeric `R` and `r`, and a square root with `sqrt 0 = 0`, no point
`(x, y, z)` in the output of `Torus(R, r, "y")` has `x = 0` and `y = 0`: the origin column is
excluded for every `z`, also when `R = 0` and `r > 0`. -/
theorem Torus_y_no_origin_column (sqrt : K → K) (hsqrt : sqrt 0 = 0) (R r : Num K) :
    ∃ pts, Torus sqrt [R.toVar, r.toVar, .string "y"] = some (.vectors pts) ∧
      ∀ x y z : K, (⟨x, y, z⟩ : Vector K) ∈ pts → ¬ (x = 0 ∧ y = 0) := by
  refine ⟨_, Torus_y_eq sqrt R r, fun x y z hmem => ?_⟩
  simp only [List.mem_flatMap] at hmem
  obtain ⟨x', -, y', -, hmem⟩ := hmem
  rintro ⟨rfl, rfl⟩
  split_ifs at hmem with hc
  · simp only [List.mem_flatMap] at hmem
    obtain ⟨z', -, hmem⟩ := hmem
    split_ifs at hmem
    · simp only [List.mem_singleton, Vector.mk.injEq] at hmem
      obtain ⟨rfl, rfl, rfl⟩ := hmem
      rw [mul_zero, add_zero, hsqrt] at hc
      exact lt_irrefl _ hc
    · simp at hmem
  · simp at hmem

/-- Witness of `Torus_y_no_origin_column` at `R = 0`, `r = 1`, with the output there. -/
theorem Torus_y_no_origin_column_witness :
    isqrt 0 = 0 ∧
    (∃ pts, Torus isqrt [.int 0, .int 1, .string "y"] = some (.vectors pts) ∧
      ∀ x y z : ℚ, (⟨x, y, z⟩ : Vector ℚ) ∈ pts → ¬ (x = 0 ∧ y = 0)) ∧
    Torus isqrt [.int 0, .int 1, .string "y"] = some (.vectors [⟨-1, 0, 0⟩, ⟨0, -1, 0⟩]) :=
  ⟨isqrt_zero, Torus_y_no_origin_column isqrt isqrt_zero (.int 0) (.int 1), Torus_zero_one⟩

end EllipseTorusClaims

/-! ## The line sampler `Line` -/

section LineLemmas

variable {K : Type} [LinearOrderedField K]

/-- Started at `t = k * s` with `m` iterations to go, the loop of `Line` appends the points at
`t = k * s, (k + 1) * s, ...` and stops, provided `N * s ≤ 1 < (N + 1) * s`. -/
theorem LineLoop_eq (sx sy sz ex ey ez s : K) (N : ℕ) (hs : 0 ≤ s) (hN : (N : K) * s ≤ 1)
    (hN1 : 1 < ((N : K) + 1) * s) (m : ℕ) :
    ∀ (k fuel : ℕ) (BlockSet : List (Vector K)), k + m = N + 1 → m < fuel →
      LineLoop sx sy sz ex ey ez s fuel ((k : K) * s) BlockSet =
        some (BlockSet ++ (List.range' k m).map fun (i : ℕ) =>
          ⟨(i : K) * s * (ex - sx) + sx, (i : K) * s * (ey - sy) + sy,
            (i : K) * s * (ez - sz) + sz⟩) := by
  induction m with
  | zero =>
    intro k fuel BlockSet hk hfuel
    obtain ⟨fuel, rfl⟩ : ∃ f, fuel = f + 1 := ⟨fuel - 1, by omega⟩
    have hk' : (k : K) = (N : K) + 1 := by
      have : k = N + 1 := by omega
      rw [this]; push_cast; rfl
    rw [LineLoop, if_neg]
    · simp
    · rintro ⟨-, h⟩
      rw [hk'] at h
      exact absurd h (not_le.2 hN1)
  | succ m ih =>
    intro k fuel BlockSet hk hfuel
    obtain ⟨fuel, rfl⟩ : ∃ f, fuel = f + 1 := ⟨fuel - 1, by omega⟩
    have hkN : (k : K) ≤ N := by exact_mod_cast (show k ≤ N by omega)
    have h0 : (k : K) * s ≥ 0 := mul_nonneg (Nat.cast_nonneg k) hs
    have h1 : (k : K) * s ≤ 1 := le_trans (mul_le_mul_of_nonneg_right hkN hs) hN
    have hstep : (k : K) * s + s = ((k + 1 : ℕ) : K) * s := by push_cast; ring
    rw [LineLoop, if_pos ⟨h0, h1⟩, hstep, ih (k + 1) fuel _ (by omega) (by omega)]
    simp [List.range'_succ]

/-- With a positive computed length `L` and enough fuel, `Line` returns the points at
`t = k / L` for `k = 0, ..., ⌊L⌋`. -/
theorem Line_eq_of_pos [FloorRing K] (sqrt : K → K) (sx sy sz ex ey ez L : K) (fuel : ℕ)
    (hLdef : sqrt ((ex - sx) ^ 2 + (ey - sy) ^ 2 + (ez - sz) ^ 2) = L) (hL : 0 < L)
    (hfuel : ⌊L⌋.toNat + 1 < fuel) :
    Line sqrt fuel ⟨sx, sy, sz⟩ ⟨ex, ey, ez⟩ =
      some ((List.range (⌊L⌋.toNat + 1)).map fun (k : ℕ) =>
        ⟨sx + (k / L) * (ex - sx), sy + (k / L) * (ey - sy), sz + (k / L) * (ez - sz)⟩) := by
  have hfl : 0 ≤ ⌊L⌋ := Int.floor_nonneg.2 hL.le
  have h1 : ((⌊L⌋.toNat : ℕ) : K) = ((⌊L⌋ : ℤ) : K) := by
    rw [← Int.cast_natCast, Int.toNat_of_nonneg hfl]
  have hNL : ((⌊L⌋.toNat : ℕ) : K) ≤ L := by
    rw [h1]; exact Int.floor_le L
  have hLN : L < ((⌊L⌋.toNat : ℕ) : K) + 1 := by
    rw [h1]; exact Int.lt_floor_add_one L
  have hs : 0 < 1 / L := one_div_pos.2 hL
  have key := LineLoop_eq sx sy sz ex ey ez (1 / L) ⌊L⌋.toNat hs.le
    (by rw [mul_one_div, div_le_one hL]; exact hNL)
    (by rw [mul_one_div, lt_div_iff₀ hL, one_mul]; exact hLN)
    (⌊L⌋.toNat + 1) 0 fuel [] (by omega) hfuel
  rw [Nat.cast_zero, zero_mul, List.nil_append] at key
  have hLine : Line sqrt fuel ⟨sx, sy, sz⟩ ⟨ex, ey, ez⟩ =
      LineLoop sx sy sz ex ey ez (1 / L) fuel 0 [] := by
    simp only [Line, hLdef, if_neg hL.ne']
  rw [hLine, key, List.range_eq_range']
  congr 2
  funext k
  congr 1 <;> ring

end LineLemmas

section LineClaims

variable {K : Type} [LinearOrderedField K] [FloorRing K]

/-- Claim C10: for endpoints whose distance `L`, as `math.Sqrt` returns it, is positive (for the
real square root: distinct endpoints), in exact arithmetic the loop of `Line` terminates (every
`fuel > ⌊L⌋ + 1` suffices) and returns exactly `⌊L⌋ + 1` points, whose `k`-th point
(`k = 0, ..., ⌊L⌋`) is `begin + (k / L) * (end - begin)`; the first point is `begin`, and
`Line((0,0,0), (3,0,0))`, of length `3`, returns `(0,0,0), (1,0,0), (2,0,0), (3,0,0)`. -/
theorem Line_points (sqrt : K → K) (begin_ end_ : Vector K) (fuel : ℕ)
    (hL : 0 < sqrt ((end_.a - begin_.a) ^ 2 + (end_.b - begin_.b) ^ 2 + (end_.c - begin_.c) ^ 2))
    (hfuel : ⌊sqrt ((end_.a - begin_.a) ^ 2 + (end_.b - begin_.b) ^ 2 +
      (end_.c - begin_.c) ^ 2)⌋.toNat + 1 < fuel) :
    (∃ pts, Line sqrt fuel begin_ end_ = some pts ∧
      pts.length = ⌊sqrt ((end_.a - begin_.a) ^ 2 + (end_.b - begin_.b) ^ 2 +
        (end_.c - begin_.c) ^ 2)⌋.toNat + 1 ∧
      pts.head? = some begin_ ∧
      ∀ k : ℕ, k ≤ ⌊sqrt ((end_.a - begin_.a) ^ 2 + (end_.b - begin_.b) ^ 2 +
          (end_.c - begin_.c) ^ 2)⌋.toNat →
        pts[k]? = some ⟨
          begin_.a + (k / sqrt ((end_.a - begin_.a) ^ 2 + (end_.b - begin_.b) ^ 2 +
            (end_.c - begin_.c) ^ 2)) * (end_.a - begin_.a),
          begin_.b + (k / sqrt ((end_.a - begin_.a) ^ 2 + (end_.b - begin_.b) ^ 2 +
            (end_.c - begin_.c) ^ 2)) * (end_.b - begin_.b),
          begin_.c + (k / sqrt ((end_.a - begin_.a) ^ 2 + (end_.b - begin_.b) ^ 2 +
            (end_.c - begin_.c) ^ 2)) * (end_.c - begin_.c)⟩) ∧
    (sqrt ((3 - 0) ^ 2 + (0 - 0) ^ 2 + (0 - 0) ^ 2) = 3 →
      Line sqrt 5 ⟨0, 0, 0⟩ ⟨3, 0, 0⟩ = some [⟨0, 0, 0⟩, ⟨1, 0, 0⟩, ⟨2, 0, 0⟩, ⟨3, 0, 0⟩]) := by
  constructor
  · obtain ⟨sx, sy, sz⟩ := begin_
    obtain ⟨ex, ey, ez⟩ := end_
    simp only at hL hfuel ⊢
    refine ⟨_, Line_eq_of_pos sqrt sx sy sz ex ey ez _ fuel rfl hL hfuel, ?_, ?_, ?_⟩
    · simp
    · simp [List.range_succ_eq_map]
    · intro k hk
      rw [List.getElem?_map, List.getElem?_range (by omega)]
      rfl
  · intro h9
    have hfl : ⌊(3 : K)⌋.toNat = 3 := by
      have : (3 : K) = ((3 : ℕ) : K) := by norm_num
      rw [this, Int.floor_natCast]
      rfl
    rw [Line_eq_of_pos sqrt 0 0 0 3 0 0 3 5 h9 (by norm_num) (by rw [hfl]; norm_num), hfl]
    simp only [List.range_succ, List.range_zero, List.nil_append, List.map_append, List.map_cons,
      List.map_nil, List.cons_append]
    norm_num

/-- Witness of `Line_points` with the sample square root: `Line((0,0,0), (3,0,0))` has length `3`
and returns four points with non-decreasing first coordinate. -/
theorem Line_points_witness :
    0 < isqrt ((3 - 0) ^ 2 + (0 - 0) ^ 2 + (0 - 0) ^ 2) ∧
      Line isqrt 5 ⟨0, 0, 0⟩ ⟨3, 0, 0⟩ =
        some [⟨0, 0, 0⟩, ⟨1, 0, 0⟩, ⟨2, 0, 0⟩, ⟨3, 0, 0⟩] := by
  have h9 : isqrt ((3 - 0) ^ 2 + (0 - 0) ^ 2 + (0 - 0) ^ 2) = 3 := by
    norm_num [isqrt_nine]
  have hfl : ⌊(3 : ℚ)⌋.toNat = 3 := by norm_num; rfl
  exact ⟨by rw [h9]; norm_num,
    (Line_points isqrt ⟨0, 0, 0⟩ ⟨3, 0, 0⟩ 5 (by rw [h9]; norm_num)
      (by rw [h9, hfl]; norm_num)).2 h9⟩

end LineClaims

section LineDegenerateClaims

variable {K : Type} [LinearOrderedField K]

/-- On a zero-length segment `Line` returns the start point alone. -/
theorem Line_same_point (sqrt : K → K) (hsqrt : sqrt 0 = 0) (p : Vector K) (fuel : ℕ) :
    Line sqrt (fuel + 2) p p = some [p] := by
  obtain ⟨x, y, z⟩ := p
  simp [Line, hsqrt]

/-- Claim C11, amended: for every point `p`, `Line(p, p)` returns the one-point sequence `[p]`
(for a square root with `sqrt 0 = 0`, after two loop tests); `Line` returns a point sequence only
and signals no failure. -/
theorem Line_degenerate (sqrt : K → K) (hsqrt : sqrt 0 = 0) (p : Vector K) (fuel : ℕ)
    (hfuel : 2 ≤ fuel) : Line sqrt fuel p p = some [p] := by
  obtain ⟨n, rfl⟩ : ∃ n, fuel = n + 2 := ⟨fuel - 2, by omega⟩
  exact Line_same_point sqrt hsqrt p n

/-- Witness of `Line_degenerate` at the point `(1, 2, 3)`. -/
theorem Line_degenerate_witness :
    isqrt 0 = 0 ∧ Line isqrt 2 ⟨1, 2, 3⟩ ⟨1, 2, 3⟩ = some [⟨1, 2, 3⟩] :=
  ⟨isqrt_zero, Line_degenerate isqrt isqrt_zero ⟨1, 2, 3⟩ 2 le_rfl⟩

/-- Claim C11 as stated fails at the origin: `Line((0,0,0), (0,0,0))` returns the point sequence
`[(0,0,0)]`. -/
theorem Line_degenerate_counterexample :
    ∃ pts, Line isqrt 2 ⟨0, 0, 0⟩ ⟨0, 0, 0⟩ = some pts ∧ pts = [⟨0, 0, 0⟩] :=
  ⟨_, Line_same_point isqrt isqrt_zero ⟨0, 0, 0⟩ 0, rfl⟩

end LineDegenerateClaims

/-! ## The combinator `Composition` -/

section CompositionClaims

variable {K : Type}

/-- On an array that holds a `[]function.Vector`, as the generators return it, the type assertion
of `Composition` panics. -/
theorem Composition_vectors (call : Nat → Variable K → Variable K) (fn : Nat)
    (vs : List (Vector K)) :
    Composition call [.ifunc fn, .vectors vs] = none := by
  simp [Composition, Variable.Type]

/-- Claim C13, amended: whenever the first argument of `Composition` is not of the function type,
or the second argument is not of the array type, `Composition` returns the empty array, and no
failure. -/
theorem Composition_bad_operands (call : Nat → Variable K → Variable K)
    (a0 a1 : Variable K) (rest : List (Variable K))
    (h : a0.Type ≠ .TypeIFunc ∨ a1.Type ≠ .TypeArray) :
    Composition call (a0 :: a1 :: rest) = some (.array []) := by
  by_cases h0 : a0.Type = .TypeIFunc
  · have h1 : a1.Type ≠ .TypeArray := h.resolve_left (fun h' => h' h0)
    simp [Composition, h0, h1]
  · simp [Composition, h0]

/-- Witness of `Composition_bad_operands`: an integer in place of the function, and an integer in
place of the array. -/
theorem Composition_bad_operands_witness :
    Composition (K := ℚ) (fun _ v => v) [.int 1, .array [.int 2]] = some (.array []) ∧
      Composition (K := ℚ) (fun _ v => v) [.ifunc 0, .int 2] = some (.array []) :=
  ⟨Composition_bad_operands _ _ _ _ (Or.inl (by simp [Variable.Type])),
    Composition_bad_operands _ _ _ _ (Or.inr (by simp [Variable.Type]))⟩

/-- Claim C13 as stated fails on `Composition(1, [2])`: the first argument is an integer, and the
result is the empty array, not a failure. -/
theorem Composition_bad_operands_counterexample :
    Composition (K := ℚ) (fun _ v => v) [.int 1, .array [.int 2]] = some (.array []) ∧
      ∀ e, Composition (K := ℚ) (fun _ v => v) [.int 1, .array [.int 2]] ≠ some (.err e) := by
  have h : Composition (K := ℚ) (fun _ v => v) [.int 1, .array [.int 2]] = some (.array []) := by
    simp [Composition, Variable.Type]
  refine ⟨h, fun e he => ?_⟩
  rw [h] at he
  simp at he

end CompositionClaims

/-! ## The coercion `getFloat` -/

section GetFloatClaims

variable {K : Type} [LinearOrderedField K]

theorem real_isSome_iff (v : Variable K) :
    (∃ q, v.real? = some q) ↔ (v.Type = .TypeInt ∨ v.Type = .TypeFloat) := by
  cases v <;> simp [Variable.real?, Variable.Type]

/-- The loop of `getFloat` on a list of integers and floats appends their values. -/
theorem getFloatLoop_ok (vars : List (Variable K)) :
    ∀ (res : List K) (k : ℕ) (vals : List K), vars.map Variable.real? = vals.map some →
      getFloatLoop res k vars = .ok (res ++ vals) := by
  induction vars with
  | nil =>
    intro res k vals h
    cases vals with
    | nil => simp [getFloatLoop]
    | cons _ _ => simp at h
  | cons v vars ih =>
    intro res k vals h
    cases vals with
    | nil => simp at h
    | cons q vals =>
      simp only [List.map_cons, List.cons.injEq] at h
      obtain ⟨hv, hrest⟩ := h
      cases v <;> simp only [Variable.real?, Option.some.injEq] at hv <;>
        first
        | (subst hv; rw [getFloatLoop, ih _ _ _ hrest]; simp)
        | exact absurd hv (by simp)

/-- The loop of `getFloat` stops at the first element that is neither integer nor float. -/
theorem getFloatLoop_error (pre : List (Variable K)) (v : Variable K) (post : List (Variable K))
    (hv : v.real? = none) :
    ∀ (res : List K) (k : ℕ), (∀ u ∈ pre, ∃ q, u.real? = some q) →
      getFloatLoop res k (pre ++ v :: post) = .error (.getFloat v.Type (k + pre.length)) := by
  induction pre with
  | nil =>
    intro res k _
    cases v <;> simp [Variable.real?] at hv <;> simp [getFloatLoop]
  | cons u pre ih =>
    intro res k hpre
    have hu := hpre u (List.mem_cons_self _ _)
    have hrest : ∀ w ∈ pre, ∃ q, w.real? = some q := fun w hw =>
      hpre w (List.mem_cons_of_mem _ hw)
    obtain ⟨q, hq⟩ := hu
    cases u <;> simp [Variable.real?] at hq <;>
      (rw [List.cons_append, getFloatLoop, ih _ _ hrest]; simp [Nat.add_assoc, Nat.add_comm 1])

/-- Every list splits at its first element without a real value, if there is one. -/
theorem exists_first_bad (vars : List (Variable K)) :
    (∃ vals : List K, vars.map Variable.real? = vals.map some) ∨
      ∃ pre v post, vars = pre ++ v :: post ∧ v.real? = none ∧
        ∀ u ∈ pre, ∃ q, u.real? = some q := by
  induction vars with
  | nil => exact Or.inl ⟨[], rfl⟩
  | cons v vars ih =>
    cases hv : v.real? with
    | none => exact Or.inr ⟨[], v, vars, rfl, hv, by simp⟩
    | some q =>
      rcases ih with ⟨vals, h⟩ | ⟨pre, w, post, h, hw, hpre⟩
      · exact Or.inl ⟨q :: vals, by simp [hv, h]⟩
      · refine Or.inr ⟨v :: pre, w, post, by simp [h], hw, ?_⟩
        intro u hu
        rcases List.mem_cons.1 hu with rfl | hu
        · exact ⟨q, hv⟩
        · exact hpre u hu

/-- Claim C14, amended: `getFloat` succeeds if and only if every element is of integer or float
type, and then returns a list of equal length whose entries are the `float64` values of the
inputs, in the same order: a float as it is, an integer `n` converted by `float64(n)`, which is
the `float64` nearest to `n`, an integer, and `n` itself when `|n| ≤ 2 ^ 53`; otherwise, at the
first element
`v` that is neither integer nor float, it returns the error that reports the type of `v` and its
zero-based index, and no list. -/
theorem getFloat_spec (vars : List (Variable K)) :
    ((∃ res, getFloat vars = .ok res) ↔
        ∀ v ∈ vars, v.Type = .TypeInt ∨ v.Type = .TypeFloat) ∧
      (∀ res, getFloat vars = .ok res →
        res.length = vars.length ∧ res.map some = vars.map Variable.real?) ∧
      (∀ pre v post, vars = pre ++ v :: post →
        (∀ u ∈ pre, u.Type = .TypeInt ∨ u.Type = .TypeFloat) →
        ¬ (v.Type = .TypeInt ∨ v.Type = .TypeFloat) →
        getFloat vars = .error (.getFloat v.Type pre.length)) ∧
      (∀ q : K, (Variable.float q).real? = some q) ∧
      (∀ n : ℤ, (Variable.int n : Variable K).real? = some ((⌊round64 n⌋ : ℤ) : K)) ∧
      (∀ n : ℤ, ((⌊round64 n⌋ : ℤ) : ℚ) = round64 n) ∧
      ∀ n : ℤ, |n| ≤ 2 ^ 53 → (Variable.int n : Variable K).real? = some (n : K) := by
  have hval : (∀ q : K, (Variable.float q).real? = some q) ∧
      (∀ n : ℤ, (Variable.int n : Variable K).real? = some ((⌊round64 n⌋ : ℤ) : K)) ∧
      (∀ n : ℤ, ((⌊round64 n⌋ : ℤ) : ℚ) = round64 n) ∧
      ∀ n : ℤ, |n| ≤ 2 ^ 53 → (Variable.int n : Variable K).real? = some (n : K) :=
    ⟨fun _ => rfl, fun _ => rfl, float64OfInt_cast,
      fun n hn => by rw [Variable.real?, float64OfInt_eq_self n hn]⟩
  have herr : ∀ pre v post, vars = pre ++ v :: post →
      (∀ u ∈ pre, u.Type = .TypeInt ∨ u.Type = .TypeFloat) →
      ¬ (v.Type = .TypeInt ∨ v.Type = .TypeFloat) →
      getFloat vars = .error (.getFloat v.Type pre.length) := by
    intro pre v post hsplit hpre hv
    have hv' : v.real? = none := by
      cases h : v.real? with
      | none => rfl
      | some q => exact absurd ((real_isSome_iff v).1 ⟨q, h⟩) hv
    have := getFloatLoop_error pre v post hv' [] 0 (fun u hu => (real_isSome_iff u).2 (hpre u hu))
    rw [getFloat, hsplit, this, Nat.zero_add]
  rcases exists_first_bad vars with ⟨vals, hvals⟩ | ⟨pre, v, post, hsplit, hv, hpre⟩
  · have hok : getFloat vars = .ok vals := by
      rw [getFloat, getFloatLoop_ok vars [] 0 vals hvals, List.nil_append]
    refine ⟨⟨fun _ v hv => ?_, fun _ => ⟨vals, hok⟩⟩, ?_, herr, hval⟩
    · have : v.real? ∈ vars.map Variable.real? := List.mem_map_of_mem _ hv
      rw [hvals] at this
      obtain ⟨q, -, hq⟩ := List.mem_map.1 this
      exact (real_isSome_iff v).1 ⟨q, hq.symm⟩
    · intro res hres
      rw [hok] at hres
      cases hres
      refine ⟨?_, hvals.symm⟩
      have := congrArg List.length hvals
      simpa using this.symm
  · have hbad : ¬ (v.Type = .TypeInt ∨ v.Type = .TypeFloat) := fun h => by
      obtain ⟨q, hq⟩ := (real_isSome_iff v).2 h
      rw [hv] at hq
      cases hq
    have he := herr pre v post hsplit (fun u hu => (real_isSome_iff u).1 (hpre u hu)) hbad
    refine ⟨⟨fun ⟨res, hres⟩ => ?_, fun hall => ?_⟩, fun res hres => ?_, herr, hval⟩
    · rw [he] at hres; cases hres
    · exact absurd (hall v (by rw [hsplit]; simp)) hbad
    · rw [he] at hres; cases hres

/-- Witness of `getFloat_spec`: the string at index `2` is reported, the `nil` behind it is not
reached. -/
theorem getFloat_spec_witness :
    getFloat (K := ℚ) [.int 1, .float (1 / 2), .string "a", .nil] =
        .error (.getFloat .TypeString 2) ∧
      ∀ res, getFloat (K := ℚ) [.int 1, .float (1 / 2)] = .ok res →
        res.length = 2 ∧ res.map some = [some 1, some (1 / 2)] := by
  refine ⟨(getFloat_spec (K := ℚ) [.int 1, .float (1 / 2), .string "a", .nil]).2.2.1
    [.int 1, .float (1 / 2)] (.string "a") [.nil] rfl (by simp [Variable.Type])
    (by simp [Variable.Type]), fun res hres => ?_⟩
  have h := (getFloat_spec (K := ℚ) [.int 1, .float (1 / 2)]).2.1 res hres
  simpa [Variable.real?] using h

/-- Claim C14 as stated fails on the integer `9007199254740993`, which is `2 ^ 53 + 1`: the entry
returned is `9007199254740992`, the `float64` nearest to it, and not the value of the input. -/
theorem getFloat_spec_counterexample :
    getFloat (K := ℚ) [.int 9007199254740993] = .ok [9007199254740992] ∧
      ((9007199254740993 : ℤ) : ℚ) ≠ 9007199254740992 := by
  refine ⟨?_, by norm_num⟩
  simp [getFloat, getFloatLoop, float64OfInt_above]

end GetFloatClaims

/-! ## Facing tokens and coordinate packing -/

section PackingLemmas

variable {K : Type}

/-- Repacking the points of a loop nest of three loops repacks the appended point. -/
theorem map_nest_three {α : Type} (f : Vector K → Vector K) (l₁ l₂ l₃ : List α)
    (P : α → α → α → Prop) [∀ a b c, Decidable (P a b c)] (g : α → α → α → Vector K) :
    (l₁.flatMap fun a => l₂.flatMap fun b => l₃.flatMap fun c =>
        if P a b c then [g a b c] else []).map f =
      l₁.flatMap fun a => l₂.flatMap fun b => l₃.flatMap fun c =>
        if P a b c then [f (g a b c)] else [] := by
  simp only [List.map_flatMap]
  congr 1; funext a; congr 1; funext b; congr 1; funext c
  split_ifs <;> rfl

/-- Repacking the points of the loop nest of `Torus` repacks the appended point. -/
theorem map_nest_guarded {α : Type} (f : Vector K → Vector K) (l₁ l₂ l₃ : List α)
    (G : α → α → Prop) [∀ a b, Decidable (G a b)]
    (P : α → α → α → Prop) [∀ a b c, Decidable (P a b c)] (g : α → α → α → Vector K) :
    (l₁.flatMap fun a => l₂.flatMap fun b =>
        if G a b then l₃.flatMap fun c => if P a b c then [g a b c] else [] else []).map f =
      l₁.flatMap fun a => l₂.flatMap fun b =>
        if G a b then l₃.flatMap fun c => if P a b c then [f (g a b c)] else [] else [] := by
  simp only [List.map_flatMap]
  congr 1; funext a; congr 1; funext b
  by_cases hG : G a b
  · rw [if_pos hG, if_pos hG, List.map_flatMap]
    congr 1; funext c
    split_ifs <;> rfl
  · rw [if_neg hG, if_neg hG]; rfl

end PackingLemmas

section FacingClaims

variable {K : Type} [LinearOrderedField K] [FloorRing K]

theorem Ellipse_x_eq (width length height : Num K) :
    Ellipse [width.toVar, length.toVar, height.toVar, .string "x"] =
      some (.vectors ((sweepLe 0 height.val).flatMap fun h =>
          (sweepLe (-length.val) length.val).flatMap fun i =>
            (sweepLe (-width.val) width.val).flatMap fun j =>
              if length.val * length.val ≠ 0 ∧ width.val * width.val ≠ 0 ∧
                  (i * i * 1) / (length.val * length.val) +
                    (j * j * 1) / (width.val * width.val) < 1 then
                [⟨h, i, j⟩]
              else [])) := by
  simp [Ellipse, getFloat_three]

theorem Ellipse_y_eq (width length height : Num K) :
    Ellipse [width.toVar, length.toVar, height.toVar, .string "y"] =
      some (.vectors ((sweepLe 0 height.val).flatMap fun h =>
          (sweepLe (-length.val) length.val).flatMap fun i =>
            (sweepLe (-width.val) width.val).flatMap fun j =>
              if length.val * length.val ≠ 0 ∧ width.val * width.val ≠ 0 ∧
                  (i * i * 1) / (length.val * length.val) +
                    (j * j * 1) / (width.val * width.val) < 1 then
                [⟨i, j, h⟩]
              else [])) := by
  simp [Ellipse, getFloat_three]

theorem Torus_x_eq (sqrt : K → K) (R r : Num K) :
    Torus sqrt [R.toVar, r.toVar, .string "x"] =
      some (.vectors ((sweepLt (-R.val - r.val) (R.val + r.val)).flatMap fun x =>
          (sweepLt (-R.val - r.val) (R.val + r.val)).flatMap fun y =>
            let xyDist := sqrt (x * x + y * y)
            if xyDist > 0 then
              let ringx := x / xyDist * R.val
              let ringy := y / xyDist * R.val
              let ringDist := (x - ringx) * (x - ringx) + (y - ringy) * (y - ringy)
              (sweepLt (-R.val - r.val) (R.val + r.val)).flatMap fun z =>
                if ringDist + z * z ≤ r.val * r.val then [⟨y, x, z⟩] else []
            else [])) := by
  simp [Torus, getFloat_two]

theorem Torus_z_eq (sqrt : K → K) (R r : Num K) :
    Torus sqrt [R.toVar, r.toVar, .string "z"] =
      some (.vectors ((sweepLt (-R.val - r.val) (R.val + r.val)).flatMap fun x =>
          (sweepLt (-R.val - r.val) (R.val + r.val)).flatMap fun y =>
            let xyDist := sqrt (x * x + y * y)
            if xyDist > 0 then
              let ringx := x / xyDist * R.val
              let ringy := y / xyDist * R.val
              let ringDist := (x - ringx) * (x - ringx) + (y - ringy) * (y - ringy)
              (sweepLt (-R.val - r.val) (R.val + r.val)).flatMap fun z =>
                if ringDist + z * z ≤ r.val * r.val then [⟨x, z, y⟩] else []
            else [])) := by
  simp [Torus, getFloat_two]

/-- Claim C16: for numeric width, length and height and every facing token other than `"x"`,
`"y"`, `"z"`, `Ellipse` does not fail and returns the empty point sequence. -/
theorem Ellipse_unknown_facing (width length height : Num K) (facing : String)
    (hx : facing ≠ "x") (hy : facing ≠ "y") (hz : facing ≠ "z") :
    Ellipse [width.toVar, length.toVar, height.toVar, .string facing] = some (.vectors []) := by
  simp [Ellipse, getFloat_three, hx, hy, hz]

/-- Witness of `Ellipse_unknown_facing` at the token `"w"`. -/
theorem Ellipse_unknown_facing_witness :
    Ellipse (K := ℚ) [.int 1, .float 2, .int 3, .string "w"] = some (.vectors []) :=
  Ellipse_unknown_facing (K := ℚ) (.int 1) (.float 2) (.int 3) "w" (by decide) (by decide)
    (by decide)

/-- Claim C17: the three facings of `Ellipse` differ only by coordinate packing: the facing-`"y"`
output is the facing-`"x"` output with each point `(h, i, j)` replaced by `(i, j, h)`, and the
facing-`"z"` output is it with each point replaced by `(i, h, j)`, element for element in the
same order. -/
theorem Ellipse_packing (width length height : Num K) :
    ∃ pts, Ellipse [width.toVar, length.toVar, height.toVar, .string "x"] = some (.vectors pts) ∧
      Ellipse [width.toVar, length.toVar, height.toVar, .string "y"] =
        some (.vectors (pts.map fun p => ⟨p.b, p.c, p.a⟩)) ∧
      Ellipse [width.toVar, length.toVar, height.toVar, .string "z"] =
        some (.vectors (pts.map fun p => ⟨p.b, p.a, p.c⟩)) := by
  refine ⟨_, Ellipse_x_eq width length height, ?_, ?_⟩
  · rw [Ellipse_y_eq, map_nest_three]
  · rw [Ellipse_z_eq, map_nest_three]

/-- Claim C18: for one fixed square root, the three facings of `Torus` differ only by coordinate
packing: the facing-`"x"` output is the facing-`"y"` output with each point `(x, y, z)` replaced
by `(y, x, z)`, and the facing-`"z"` output is it with each point replaced by `(x, z, y)`, element
for element in the same order. -/
theorem Torus_packing (sqrt : K → K) (R r : Num K) :
    ∃ pts, Torus sqrt [R.toVar, r.toVar, .string "y"] = some (.vectors pts) ∧
      Torus sqrt [R.toVar, r.toVar, .string "x"] =
        some (.vectors (pts.map fun p => ⟨p.b, p.a, p.c⟩)) ∧
      Torus sqrt [R.toVar, r.toVar, .string "z"] =
        some (.vectors (pts.map fun p => ⟨p.a, p.c, p.b⟩)) := by
  refine ⟨_, Torus_y_eq sqrt R r, ?_, ?_⟩
  · rw [Torus_x_eq]
    simp only []
    rw [map_nest_guarded]
  · rw [Torus_z_eq]
    simp only []
    rw [map_nest_guarded]

end FacingClaims

/-! ## Output order -/

section OrderLemmas

variable {K : Type} [LinearOrderedField K]

theorem lexLt_irrefl (p : Vector K) : ¬ Vector.lexLt p p := by
  rintro (h | ⟨-, h | ⟨-, h⟩⟩) <;> exact lt_irrefl _ h

/-- A nest of three loops over strictly increasing lists appends the points in strictly
increasing lexicographic order. -/
theorem pairwise_lexLt_nest (l₁ l₂ l₃ : List K) (h₁ : l₁.Pairwise (· < ·))
    (h₂ : l₂.Pairwise (· < ·)) (h₃ : l₃.Pairwise (· < ·))
    (P : K → K → K → Prop) [∀ a b c, Decidable (P a b c)] :
    (l₁.flatMap fun x => l₂.flatMap fun y => l₃.flatMap fun z =>
      if P x y z then [(⟨x, y, z⟩ : Vector K)] else []).Pairwise Vector.lexLt := by
  have mem3 : ∀ x y z (p : Vector K), p ∈ (if P x y z then [(⟨x, y, z⟩ : Vector K)] else []) →
      p = ⟨x, y, z⟩ := by
    intro x y z p hp
    split_ifs at hp
    · exact List.mem_singleton.1 hp
    · simp at hp
  have mem2 : ∀ x y (p : Vector K),
      p ∈ (l₃.flatMap fun z => if P x y z then [(⟨x, y, z⟩ : Vector K)] else []) →
      p.a = x ∧ p.b = y := by
    intro x y p hp
    obtain ⟨z, -, hz⟩ := List.mem_flatMap.1 hp
    rw [mem3 x y z p hz]
    exact ⟨rfl, rfl⟩
  have mem1 : ∀ x (p : Vector K),
      p ∈ (l₂.flatMap fun y => l₃.flatMap fun z =>
        if P x y z then [(⟨x, y, z⟩ : Vector K)] else []) → p.a = x := by
    intro x p hp
    obtain ⟨y, -, hy⟩ := List.mem_flatMap.1 hp
    exact (mem2 x y p hy).1
  refine List.pairwise_flatMap.2 ⟨fun x _ => ?_, h₁.imp ?_⟩
  · refine List.pairwise_flatMap.2 ⟨fun y _ => ?_, h₂.imp ?_⟩
    · refine List.pairwise_flatMap.2 ⟨fun z _ => ?_, h₃.imp ?_⟩
      · split_ifs
        · exact List.pairwise_singleton _ _
        · exact List.Pairwise.nil
      · intro z₁ z₂ hz p hp q hq
        rw [mem3 x y z₁ p hp, mem3 x y z₂ q hq]
        exact Or.inr ⟨rfl, Or.inr ⟨rfl, hz⟩⟩
    · intro y₁ y₂ hy p hp q hq
      obtain ⟨hpa, hpb⟩ := mem2 x y₁ p hp
      obtain ⟨hqa, hqb⟩ := mem2 x y₂ q hq
      exact Or.inr ⟨hpa.trans hqa.symm, Or.inl (by rw [hpb, hqb]; exact hy)⟩
  · intro x₁ x₂ hx p hp q hq
    exact Or.inl (by rw [mem1 x₁ p hp, mem1 x₂ q hq]; exact hx)

end OrderLemmas

section OrderClaims

variable {K : Type} [LinearOrderedField K] [FloorRing K]

theorem pairwise_lt_sweepLt (lo hi : K) : (sweepLt lo hi).Pairwise (· < ·) := by
  rw [sweepLt_eq_map]
  refine List.Pairwise.map _ (fun a b hab => ?_) (List.pairwise_lt_range _)
  have : (a : K) < (b : K) := by exact_mod_cast hab
  linarith

/-- Claim C19: for every radius `r ≥ ir` the output of `Sphere(r, ir)` is strictly increasing in
the lexicographic order on `(x, y, z)`, first coordinate most significant (every point is below
every later point, in particular below the next one), and so contains no duplicate point. -/
theorem Sphere_lex_increasing (r ir : Num K) (hr : r.val ≥ ir.val) :
    ∃ pts, Sphere [r.toVar, ir.toVar] = some (.vectors pts) ∧
      pts.Pairwise Vector.lexLt ∧ pts.Chain' Vector.lexLt ∧ pts.Nodup := by
  have hp := pairwise_lexLt_nest (sweepLt (-r.val) r.val) (sweepLt (-r.val) r.val)
    (sweepLt (-r.val) r.val) (pairwise_lt_sweepLt _ _) (pairwise_lt_sweepLt _ _)
    (pairwise_lt_sweepLt _ _)
    (fun x y z => r.val * r.val ≥ x * x + y * y + z * z ∧ x * x + y * y + z * z ≥ ir.val * ir.val)
  refine ⟨_, by rw [Sphere_eq, if_neg (not_lt.2 hr)], hp, hp.chain', ?_⟩
  exact hp.imp (fun {p q} h (hpq : p = q) => lexLt_irrefl q (hpq ▸ h))

/-- Witness of `Sphere_lex_increasing` at `Sphere(1, 0)`, with the output there. -/
theorem Sphere_lex_increasing_witness :
    ∃ pts, Sphere (K := ℚ) [.int 1, .int 0] = some (.vectors pts) ∧
      pts.Pairwise Vector.lexLt ∧ pts.Chain' Vector.lexLt ∧ pts.Nodup ∧
      pts = [⟨-1, 0, 0⟩, ⟨0, -1, 0⟩, ⟨0, 0, -1⟩, ⟨0, 0, 0⟩] := by
  obtain ⟨pts, h, h1, h2, h3⟩ :=
    Sphere_lex_increasing (K := ℚ) (.int 1) (.int 0) (by norm_num [Num.val])
  refine ⟨pts, h, h1, h2, h3, ?_⟩
  have h' : Sphere (K := ℚ) [.int 1, .int 0] = some (.vectors pts) := h
  rw [Sphere_one_zero] at h'
  simpa using h'.symm

/-- Claim C20: the output of `Circle(radius, inner, H, "y")` is the concatenation, for
`h = 0, 1, ..., ⌊H⌋` in that order, of the height-0 output `Circle(radius, inner, 0, "y")` with the
middle coordinate of each point replaced by `h`; its length is `⌊H⌋ + 1` times the length of the
height-0 output when `H ≥ 0`, and it is empty when `H < 0`. -/
theorem Circle_y_layers (radius inner height zero : Num K) (hz : zero.val = 0) :
    ∃ pts0 pts,
      Circle [radius.toVar, inner.toVar, zero.toVar, .string "y"] = some (.vectors pts0) ∧
      Circle [radius.toVar, inner.toVar, height.toVar, .string "y"] = some (.vectors pts) ∧
      pts = (List.range (⌊height.val⌋ + 1).toNat).flatMap
        (fun (n : ℕ) => pts0.map fun p => ⟨p.a, (n : K), p.c⟩) ∧
      (0 ≤ height.val → pts.length = (⌊height.val⌋.toNat + 1) * pts0.length) ∧
      (height.val < 0 → pts = []) := by
  have hlayer : ∀ h : K,
      ((sweepLe (-radius.val) radius.val).flatMap fun x =>
        (sweepLe (-radius.val) radius.val).flatMap fun y =>
          if radius.val * radius.val > x * x + y * y ∧
              x * x + y * y ≥ (radius.val - inner.val) * (radius.val - inner.val) then
            [(⟨x, h, y⟩ : Vector K)]
          else []) =
      (([(0 : K)].flatMap fun h => (sweepLe (-radius.val) radius.val).flatMap fun x =>
        (sweepLe (-radius.val) radius.val).flatMap fun y =>
          if radius.val * radius.val > x * x + y * y ∧
              x * x + y * y ≥ (radius.val - inner.val) * (radius.val - inner.val) then
            [(⟨x, h, y⟩ : Vector K)]
          else []).map fun p => ⟨p.a, h, p.c⟩) := by
    intro h
    rw [map_nest_three]
    simp
  have hpts : (sweepLe 0 height.val).flatMap (fun h =>
        (sweepLe (-radius.val) radius.val).flatMap fun x =>
        (sweepLe (-radius.val) radius.val).flatMap fun y =>
          if radius.val * radius.val > x * x + y * y ∧
              x * x + y * y ≥ (radius.val - inner.val) * (radius.val - inner.val) then
            [(⟨x, h, y⟩ : Vector K)]
          else []) =
      (List.range (⌊height.val⌋ + 1).toNat).flatMap (fun (n : ℕ) =>
        ([(0 : K)].flatMap fun h => (sweepLe (-radius.val) radius.val).flatMap fun x =>
        (sweepLe (-radius.val) radius.val).flatMap fun y =>
          if radius.val * radius.val > x * x + y * y ∧
              x * x + y * y ≥ (radius.val - inner.val) * (radius.val - inner.val) then
            [(⟨x, h, y⟩ : Vector K)]
          else []).map fun p => ⟨p.a, (n : K), p.c⟩) := by
    rw [sweepLe_eq_map, sub_zero, List.flatMap_map]
    congr 1
    funext n
    rw [zero_add, hlayer]
  refine ⟨_, _, by rw [Circle_y_eq, hz, sweepLe_zero_zero], Circle_y_eq radius inner height,
    hpts, fun hH => ?_, fun hH => ?_⟩
  · rw [hpts, List.length_flatMap]
    have hfl : 0 ≤ ⌊height.val⌋ := Int.floor_nonneg.2 hH
    have hN : (⌊height.val⌋ + 1).toNat = ⌊height.val⌋.toNat + 1 := by omega
    rw [hN]
    simp [Function.comp_def]
  · rw [sweepLe_nil hH]
    rfl

/-- Witness of `Circle_y_layers` at radius `2`, inner radius `2`, height `1`: two layers of nine
points. -/
theorem Circle_y_layers_witness :
    ∃ pts0 pts,
      Circle (K := ℚ) [.int 2, .int 2, .int 0, .string "y"] = some (.vectors pts0) ∧
      Circle (K := ℚ) [.int 2, .int 2, .int 1, .string "y"] = some (.vectors pts) ∧
      pts = (pts0.map fun p => ⟨p.a, 0, p.c⟩) ++ (pts0.map fun p => ⟨p.a, 1, p.c⟩) ∧
      pts.length = 2 * pts0.length := by
  obtain ⟨pts0, pts, h0, h1, h2, h3, -⟩ :=
    Circle_y_layers (K := ℚ) (.int 2) (.int 2) (.int 1) (.int 0) (by norm_num [Num.val])
  refine ⟨pts0, pts, h0, h1, ?_, ?_⟩
  · rw [h2]
    have hN : (⌊(Num.int 1 : Num ℚ).val⌋ + 1).toNat = 2 := by
      simp [Num.val]
    rw [hN]
    simp [List.range_succ]
  · have := h3 (by norm_num [Num.val])
    rw [this]
    have hN : ⌊(Num.int 1 : Num ℚ).val⌋.toNat = 1 := by
      simp [Num.val]
    rw [hN]

end OrderClaims

end Phoenix
